import Mathlib

/-!
A shallow embedding of the paragraph-diff engine of `constitution-monitor`
(`src/monitor.js`, duplicated in `src/backfill.js`).  Strings are modelled as
`List Char`; JavaScript numbers used for similarity scores and ratios are
modelled as `ℚ` (all scores in the engine are quotients of small integer
counts); JS `Set` objects are modelled as `Finset`.
-/

namespace CMon

/-- JS `\s` character class (WhiteSpace ∪ LineTerminator), as used by
`String.prototype.trim`, `/\s+/` and `/[^\w\s]/` in monitor.js. -/
def isWsChar (c : Char) : Bool :=
  c.toNat == 32 || c.toNat == 9 || c.toNat == 10 || c.toNat == 13 ||
  c.toNat == 11 || c.toNat == 12 || c.toNat == 0xa0 || c.toNat == 0x1680 ||
  (0x2000 ≤ c.toNat && c.toNat ≤ 0x200a) || c.toNat == 0x2028 ||
  c.toNat == 0x2029 || c.toNat == 0x202f || c.toNat == 0x205f ||
  c.toNat == 0x3000 || c.toNat == 0xfeff

/-- JS `\w` character class: `[A-Za-z0-9_]`. -/
def isWordChar (c : Char) : Bool :=
  (65 ≤ c.toNat && c.toNat ≤ 90) || (97 ≤ c.toNat && c.toNat ≤ 122) ||
  (48 ≤ c.toNat && c.toNat ≤ 57) || c.toNat == 95

/-- The regex class `[A-Z]` from the sentence-boundary pattern in
`splitIntoParagraphs` (monitor.js:527). -/
def isUpperChar (c : Char) : Bool :=
  65 ≤ c.toNat && c.toNat ≤ 90

/-- Sentence-terminal characters `[.!?]` from the sentence-boundary pattern. -/
def isTermChar (c : Char) : Bool :=
  c == '.' || c == '!' || c == '?'

/-- `String.prototype.trim`: drop JS whitespace from both ends. -/
def trimStr (s : List Char) : List Char :=
  (((s.dropWhile isWsChar).reverse).dropWhile isWsChar).reverse

/-- `text.replace(/\s+/g, '').length`: the number of non-whitespace characters. -/
def nonWsLen (s : List Char) : Nat :=
  (s.filter (fun c => !isWsChar c)).length

/-- `text.replace(/\s+/g, ' ')`: collapse each maximal whitespace run to one
space (a whitespace character is dropped while the next character still
belongs to the same run, and the run's single `' '` is emitted at its last
character). -/
def collapseWs : List Char → List Char
  | [] => []
  | [c] => if isWsChar c then [' '] else [c]
  | c :: d :: cs =>
    if isWsChar c then
      if isWsChar d then collapseWs (d :: cs)
      else ' ' :: collapseWs (d :: cs)
    else c :: collapseWs (d :: cs)

/-- `String.prototype.toLowerCase` on one character (Unicode default case
conversion, full mappings, as ECMA-262 prescribes).  The mappings that can
move a character across the `\w`/`\s` classes — the only distinction the two
normalizers below test right after lowercasing — are the ASCII range `A-Z`
(handled by `Char.toLower`) and the two characters whose lowercase forms
enter `\w` from outside it: U+212A KELVIN SIGN, whose lowercase is ASCII
`k`, and U+0130 LATIN CAPITAL LETTER I WITH DOT ABOVE, whose full lowercase
mapping is `i` followed by U+0307 COMBINING DOT ABOVE.  Every other Unicode
lowercase mapping (e.g. `À`→`à`, `Σ`→`σ`/`ς`, fullwidth and circled letters)
sends a character outside `\w ∪ \s` to characters outside `\w ∪ \s`, which
the normalizers strip either way, so such characters are kept unchanged
here; no case mapping involves a whitespace character. -/
def toLowerJS (c : Char) : List Char :=
  if c.toNat = 0x212a then ['k']
  else if c.toNat = 0x130 then ['i', '\u0307']
  else [Char.toLower c]

/-- monitor.js:517 `normalizeWord`: lowercase (`toLowerJS` per character)
then strip all non-`\w` characters. -/
def normalizeWord (w : List Char) : List Char :=
  ((w.map toLowerJS).flatten).filter isWordChar

/-- monitor.js:551 `normalizeForMatching`: lowercase, strip characters outside
`\w` and `\s`, collapse whitespace runs to single spaces, trim. -/
def normalizeForMatching (s : List Char) : List Char :=
  trimStr (collapseWs
    (((s.map toLowerJS).flatten).filter (fun c => isWordChar c || isWsChar c)))

/-- JS `String.prototype.split(' ')`: split at every single space character
(`''.split(' ')` is `['']`). -/
def splitSpace : List Char → List (List Char)
  | [] => [[]]
  | c :: cs =>
    if c = ' ' then [] :: splitSpace cs
    else
      match splitSpace cs with
      | [] => [[c]]
      | t :: ts => (c :: t) :: ts

/-- The word set built in `findBestMatch` (monitor.js:563/569):
`new Set(normalizeForMatching(text).split(' '))`. -/
def wordSet (s : List Char) : Finset (List Char) :=
  (splitSpace (normalizeForMatching s)).toFinset

/-- The Jaccard similarity computed in the loop of `findBestMatch`
(monitor.js:570-572): `|A ∩ B| / |A ∪ B|` over the two word sets. -/
def matchScore (a b : List Char) : ℚ :=
  ((wordSet a ∩ wordSet b).card : ℚ) / ((wordSet a ∪ wordSet b).card : ℚ)

/-- Result of `findBestMatch`: `{ index, score }`, index `-1` when unmatched. -/
structure FBMRes where
  index : Int
  score : ℚ
  deriving Repr, DecidableEq

/-- The body of `findBestMatch`'s `for` loop (monitor.js:565-578), as an
index-carrying recursion over the remaining candidates; the state is
`(bestScore, bestIndex)`. -/
def fbmGo (para : List Char) (used : Finset Nat) :
    List (List Char) → Nat → ℚ × Int → ℚ × Int
  | [], _, st => st
  | p :: rest, i, st =>
    let st' :=
      if i ∈ used then st
      else
        let score := matchScore para p
        if score > st.1 ∧ score > 3/10 then (score, (i : Int)) else st
    fbmGo para used rest (i + 1) st'

/-- monitor.js:558 `findBestMatch`: scan all candidate paragraphs in index
order, skip consumed indices, keep the first candidate whose score strictly
exceeds both the running best and the 0.3 threshold. -/
def findBestMatch (para : List Char) (paragraphs : List (List Char))
    (usedIndices : Finset Nat) : FBMRes :=
  let r := fbmGo para usedIndices paragraphs 0 (0, -1)
  ⟨r.2, r.1⟩

/-- `paragraph.split(/(\s+)/)` (monitor.js:589): split at maximal whitespace
runs, keeping the runs themselves as tokens.  The result alternates
non-whitespace and whitespace tokens, beginning and ending with a
(possibly empty) non-whitespace token. -/
def splitWs : List Char → List (List Char)
  | [] => [[]]
  | c :: cs =>
    if isWsChar c then
      match splitWs cs with
      | [] :: w :: rest => [] :: (c :: w) :: rest
      | r => [] :: [c] :: r
    else
      match splitWs cs with
      | t :: rest => (c :: t) :: rest
      | [] => [[c]]

/-- monitor.js:642 `escapeHtml`: chained global replaces of `&`, `<`, `>`.
The chained form equals this single character-wise expansion because the
replacement strings introduce no further `<` or `>`. -/
def escapeChar (c : Char) : List Char :=
  if c = '&' then '&' :: 'a' :: 'm' :: 'p' :: ';' :: []
  else if c = '<' then '&' :: 'l' :: 't' :: ';' :: []
  else if c = '>' then '&' :: 'g' :: 't' :: ';' :: []
  else [c]

def escapeHtml (s : List Char) : List Char :=
  (s.map escapeChar).flatten

/-! ### The `diff` npm package's `diffArrays` (Myers O(ND) diff)

`diffParagraphs` calls `Diff.diffArrays(oldWords, newWords, {comparator})`
from the external `diff` package (jsdiff).  Modelled from that library's
`base.js`/`array.js`: tokenize and `removeEmpty` are the identity for arrays,
the diff seeds edit length 0 by extracting the common prefix, then explores
diagonals of increasing edit length, extending each candidate path by an
insertion or deletion followed by the greedy common-run extraction, and the
first path reaching both ends wins; `buildValues` slices unchanged/added runs
from the new token list and removed runs from the old one, swapping a removed
run in front of an immediately preceding added run. -/

/-- The comparator passed to `diffArrays` (monitor.js:593). -/
def eqTok (a b : List Char) : Bool :=
  normalizeWord a = normalizeWord b

inductive DTag where
  | common | added | removed
  deriving Repr, DecidableEq

structure DComp where
  count : Nat
  tag : DTag
  deriving Repr, DecidableEq

/-- jsdiff `pushComponent`: append, merging with a same-tag last component. -/
def pushComp : List DComp → DTag → List DComp
  | [], t => [⟨1, t⟩]
  | [c], t => if c.tag = t then [⟨c.count + 1, t⟩] else [c, ⟨1, t⟩]
  | c :: cs, t => c :: pushComp cs t

structure DPath where
  newPos : Int
  comps : List DComp
  deriving Repr, DecidableEq

/-- Length of the common (comparator-equal) prefix of two token lists. -/
def commonPrefixLen : List (List Char) → List (List Char) → Nat
  | a :: as, b :: bs => if eqTok a b then commonPrefixLen as bs + 1 else 0
  | _, _ => 0

/-- jsdiff `extractCommon`: greedily consume comparator-equal tokens on the
given diagonal, recording them as one unchanged component. -/
def extractCommon (path : DPath) (newT oldT : List (List Char)) (diag : Int) : DPath :=
  let np := path.newPos
  let op := np - diag
  let cc := commonPrefixLen (newT.drop (np + 1).toNat) (oldT.drop (op + 1).toNat)
  { newPos := np + cc,
    comps := if cc = 0 then path.comps else path.comps ++ [⟨cc, DTag.common⟩] }

/-- One diagonal step of jsdiff's `execEditLength`, processing the diagonal
list in ascending order; `bp` is the previous edit length's best-path table,
`acc` the table being built for this edit length. -/
def execGo (newT oldT : List (List Char)) :
    List Int → (Int → Option DPath) → (Int → Option DPath) →
    Sum (List DComp) (Int → Option DPath)
  | [], _, acc => Sum.inr acc
  | k :: ks, bp, acc =>
    let newLen : Int := newT.length
    let oldLen : Int := oldT.length
    let addPath := bp (k - 1)
    let removePath := bp (k + 1)
    let oldPosR : Int := (match removePath with | some rp => rp.newPos | none => 0) - k
    let canAdd : Bool :=
      match addPath with
      | some ap => decide (ap.newPos + 1 < newLen)
      | none => false
    let canRemove : Bool :=
      removePath.isSome && decide (0 ≤ oldPosR) && decide (oldPosR < oldLen)
    if !canAdd && !canRemove then
      execGo newT oldT ks bp (Function.update acc k none)
    else
      let takeRemove : Bool :=
        !canAdd || (canRemove &&
          (match addPath, removePath with
           | some ap, some rp => decide (ap.newPos < rp.newPos)
           | _, _ => false))
      let base : DPath :=
        if takeRemove then
          match removePath with
          | some rp => { newPos := rp.newPos, comps := pushComp rp.comps DTag.removed }
          | none => ⟨0, []⟩
        else
          match addPath with
          | some ap => { newPos := ap.newPos + 1, comps := pushComp ap.comps DTag.added }
          | none => ⟨0, []⟩
      let base' := extractCommon base newT oldT k
      if base'.newPos + 1 ≥ newLen ∧ (base'.newPos - k) + 1 ≥ oldLen then
        Sum.inl base'.comps
      else
        execGo newT oldT ks bp (Function.update acc k (some base'))

/-- The diagonals `-e, -e+2, …, e` scanned at edit length `e`. -/
def diagList (e : Nat) : List Int :=
  (List.range (e + 1)).map (fun i => -(e : Int) + 2 * i)

/-- jsdiff's main loop over increasing edit lengths.  Myers's algorithm always
terminates within `oldLen + newLen` edit operations, so the fuel below never
runs out on the inputs it is called with; `[]` is a dead default. -/
def diffLoopGo (newT oldT : List (List Char)) : Nat → Nat → (Int → Option DPath) → List DComp
  | 0, _, _ => []
  | fuel + 1, e, bp =>
    match execGo newT oldT (diagList e) bp (fun _ => none) with
    | Sum.inl comps => comps
    | Sum.inr bp' => diffLoopGo newT oldT fuel (e + 1) bp'

/-- One entry of the `diffArrays` result: `{value, added?, removed?}`. -/
structure DPart where
  value : List (List Char)
  tag : DTag
  deriving Repr, DecidableEq

/-- jsdiff `buildValues`: assign token slices to components (unchanged and
added from the new list, removed from the old), emitting a removed run before
an immediately preceding added run. -/
def buildValues : List DComp → List (List Char) → List (List Char) → Nat → Nat →
    List DPart → List DPart
  | [], _, _, _, _, out => out
  | c :: cs, newT, oldT, np, op, out =>
    match c.tag with
    | DTag.common =>
      buildValues cs newT oldT (np + c.count) (op + c.count)
        (out ++ [⟨(newT.drop np).take c.count, DTag.common⟩])
    | DTag.added =>
      buildValues cs newT oldT (np + c.count) op
        (out ++ [⟨(newT.drop np).take c.count, DTag.added⟩])
    | DTag.removed =>
      let part : DPart := ⟨(oldT.drop op).take c.count, DTag.removed⟩
      let out' :=
        match out.getLast? with
        | some lastP =>
          if lastP.tag = DTag.added then out.dropLast ++ [part, lastP]
          else out ++ [part]
        | none => out ++ [part]
      buildValues cs newT oldT np (op + c.count) out'

/-- `Diff.diffArrays(oldT, newT, {comparator: eqTok})`. -/
def diffArraysModel (oldT newT : List (List Char)) : List DPart :=
  let cc := commonPrefixLen newT oldT
  if cc ≥ newT.length ∧ cc ≥ oldT.length then
    [⟨newT, DTag.common⟩]
  else
    let seed : DPath := ⟨(cc : Int) - 1, if cc = 0 then [] else [⟨cc, DTag.common⟩]⟩
    let comps := diffLoopGo newT oldT (oldT.length + newT.length + 1) 1
      (fun k => if k = 0 then some seed else none)
    buildValues comps newT oldT 0 0 []

/-! ### `diffParagraphs` (monitor.js:587) -/

/-- The accumulators of the rendering loop in `diffParagraphs`
(monitor.js:596-624): `html`, `hasRealChanges`, `unchangedChars`, `totalChars`. -/
structure RenderSt where
  html : List Char
  hasReal : Bool
  unchanged : Nat
  total : Nat
  deriving Repr, DecidableEq

def renderStep (st : RenderSt) (p : DPart) : RenderSt :=
  let text := p.value.flatten
  let trimmedLen := nonWsLen text
  match p.tag with
  | DTag.added =>
    if trimStr text ≠ [] then
      { html := st.html ++ ('<' :: 'a' :: 'd' :: 'd' :: '>' :: []) ++ escapeHtml text ++
          ('<' :: '/' :: 'a' :: 'd' :: 'd' :: '>' :: [])
        hasReal := true
        unchanged := st.unchanged
        total := st.total + trimmedLen }
    else
      { st with html := st.html ++ text }
  | DTag.removed =>
    if trimStr text ≠ [] then
      { html := st.html ++ ('<' :: 'd' :: 'e' :: 'l' :: '>' :: []) ++ escapeHtml text ++
          ('<' :: '/' :: 'd' :: 'e' :: 'l' :: '>' :: [])
        hasReal := true
        unchanged := st.unchanged
        total := st.total + trimmedLen }
    else st
  | DTag.common =>
    { st with
      html := st.html ++ escapeHtml text
      unchanged := st.unchanged + trimmedLen
      total := st.total + trimmedLen }

def renderParts (parts : List DPart) : RenderSt :=
  parts.foldl renderStep ⟨[], false, 0, 0⟩

/-- `totalChars > 0 ? unchangedChars / totalChars : 1` (monitor.js:627). -/
def unchangedRatio (u t : Nat) : ℚ :=
  if 0 < t then (u : ℚ) / (t : ℚ) else 1

/-- The token-level diff of a matched pair, as handed to the rendering loop. -/
def diffChanges (oldPara newPara : List Char) : List DPart :=
  diffArraysModel (splitWs oldPara) (splitWs newPara)

inductive PairType where
  | changed | replaced
  deriving Repr, DecidableEq

structure DPRes where
  type : PairType
  html : List Char
  hasChanges : Bool
  oldContent : List Char
  newContent : List Char
  deriving Repr, DecidableEq

/-- monitor.js:587 `diffParagraphs`. -/
def diffParagraphs (oldPara newPara : List Char) : DPRes :=
  let st := renderParts (diffChanges oldPara newPara)
  let isReplacement := st.hasReal && decide (unchangedRatio st.unchanged st.total < 1/2)
  { type := if isReplacement then PairType.replaced else PairType.changed,
    html := st.html,
    hasChanges := st.hasReal,
    oldContent := escapeHtml oldPara,
    newContent := escapeHtml newPara }

/-! ### Sentence segmentation (monitor.js:524 `splitIntoParagraphs`) -/

/-- The split point of `text.split(/(?<=[.!?])\s+(?=[A-Z])/)`: the previous
character is sentence-terminal, the current character starts a whitespace run,
and the first character after the maximal whitespace run is `[A-Z]`.  (The
greedy `\s+` with the upper-case lookahead can only match a maximal run: any
shorter match would be followed by whitespace, not `[A-Z]`.) -/
def lookBoundary (cur : List Char) (c : Char) (cs : List Char) : Bool :=
  (match cur.getLast? with | some p => isTermChar p | none => false) &&
  isWsChar c &&
  (match cs.dropWhile isWsChar with | d :: _ => isUpperChar d | [] => false)

/-- Scanner for the sentence split: accumulate characters into the current
sentence; at a split point, close the sentence and enter skip mode
(`skipping = true`), which discards the separator's whitespace run character
by character before the next sentence starts.  (Skip mode with exhausted
input is unreachable: a split point always has a following upper-case
character.) -/
def ssAux : Bool → List Char → List Char → List (List Char)
  | _, cur, [] => [cur]
  | false, cur, c :: cs =>
    if lookBoundary cur c cs then
      cur :: ssAux true [] cs
    else
      ssAux false (cur ++ [c]) cs
  | true, cur, c :: cs =>
    if isWsChar c then ssAux true cur cs
    else ssAux false (cur ++ [c]) cs

/-- `text.split(/(?<=[.!?])\s+(?=[A-Z])/)` (monitor.js:527). -/
def splitSentences (text : List Char) : List (List Char) :=
  ssAux false [] text

/-- The sentence-grouping loop of `splitIntoParagraphs` (monitor.js:530-543):
close the paragraph when the buffer plus the next sentence would exceed 500
characters and the buffer is non-empty; the trailing buffer is pushed only if
its trim is non-empty. -/
def siLoop : List Char → List (List Char) → List (List Char)
  | cur, [] => if trimStr cur ≠ [] then [trimStr cur] else []
  | cur, s :: rest =>
    if cur.length + s.length > 500 ∧ cur.length > 0 then
      trimStr cur :: siLoop s rest
    else
      siLoop (if cur = [] then s else cur ++ ' ' :: s) rest

/-- monitor.js:524 `splitIntoParagraphs`. -/
def splitIntoParagraphs (text : List Char) : List (List Char) :=
  let ps := siLoop [] (splitSentences text)
  if ps.length > 0 then ps else [text]

/-! ### `generateDiff` (monitor.js:698)

The source function additionally awaits an LLM summary of the entry list and
returns `JSON.stringify({summary, paragraphs})`; the claims concern the
`paragraphs` entry sequence, which is what the embedding returns. -/

inductive Entry where
  | added (content : List Char)
  | removed (content : List Char)
  | changed (content : List Char)
  | replaced (oldContent newContent : List Char)
  deriving Repr, DecidableEq

/-- The entries contributed by one matched pair (monitor.js:714-726):
nothing without real changes, else one `replaced` or one `changed` entry. -/
def pairEntries (oldPara newPara : List Char) : List Entry :=
  let r := diffParagraphs oldPara newPara
  if r.hasChanges then
    if r.type = PairType.replaced then [Entry.replaced r.oldContent r.newContent]
    else [Entry.changed r.html]
  else []

/-- The matching loop of `generateDiff` (monitor.js:706-730), threading the
`usedOld` set. -/
def gdGo (oldPs : List (List Char)) : List (List Char) → Finset Nat → List Entry × Finset Nat
  | [], used => ([], used)
  | p :: rest, used =>
    let m := findBestMatch p oldPs used
    if 0 ≤ m.index then
      let es := pairEntries (oldPs.getD m.index.toNat []) p
      let r := gdGo oldPs rest (insert m.index.toNat used)
      (es ++ r.1, r.2)
    else
      let r := gdGo oldPs rest used
      (Entry.added (escapeHtml p) :: r.1, r.2)

/-- The removal sweep of `generateDiff` (monitor.js:733-737). -/
def removedEntries (oldPs : List (List Char)) (used : Finset Nat) : List Entry :=
  (List.range oldPs.length).filterMap
    (fun i => if i ∉ used then some (Entry.removed (escapeHtml (oldPs.getD i []))) else none)

/-- monitor.js:698 `generateDiff`: the produced diff-entry sequence. -/
def generateDiff (oldContent newContent : List Char) : List Entry :=
  let oldPs := splitIntoParagraphs oldContent
  let newPs := splitIntoParagraphs newContent
  let r := gdGo oldPs newPs ∅
  r.1 ++ removedEntries oldPs r.2

/-! ## Verification-side definitions -/

/-- Invariant of `fbmGo` after the candidates with indices `< n` have been
scanned: either nothing was accepted and every unused scanned candidate is at
or below the 0.3 threshold, or the state holds the first-found maximum among
unused scanned candidates, strictly above the threshold. -/
def FbmInv (para : List Char) (used : Finset Nat) (ps : List (List Char))
    (n : Nat) (st : ℚ × Int) : Prop :=
  0 ≤ st.1 ∧
  ((st.2 = -1 ∧ st.1 = 0 ∧
      ∀ k, k < n → k ∉ used → matchScore para (ps.getD k []) ≤ 3/10) ∨
   (∃ j : Nat, j < n ∧ st.2 = (j : Int) ∧ st.1 = matchScore para (ps.getD j []) ∧
      j ∉ used ∧ 3/10 < matchScore para (ps.getD j []) ∧
      (∀ k, k < n → k ∉ used →
        matchScore para (ps.getD k []) ≤ matchScore para (ps.getD j [])) ∧
      (∀ k, k < j → k ∉ used →
        matchScore para (ps.getD k []) < matchScore para (ps.getD j []))))

/-- The sequence of (maximal, non-empty) non-whitespace runs of a paragraph:
its whitespace-split token list with the whitespace tokens and the empty
boundary tokens dropped.  Two paragraphs "differ only in spacing" when these
sequences coincide. -/
def nonWsTokens (s : List Char) : List (List Char) :=
  (splitWs s).filter (fun t => !t.isEmpty && t.all (fun c => !isWsChar c))

/-- A paragraph has no leading and no trailing whitespace character.  (This
is the shape `splitIntoParagraphs` guarantees for every paragraph with
non-whitespace content, since they are pushed through `.trim()`.) -/
def noWsEdge (s : List Char) : Bool :=
  (match s.head? with | some c => !isWsChar c | none => true) &&
  (match s.getLast? with | some c => !isWsChar c | none => true)

/-- The index pairs `(new paragraph position, matched old paragraph index)`
produced by the matching loop of `generateDiff`, mirroring `gdGo`'s
recursion. -/
def gdMatches (oldPs : List (List Char)) : List (List Char) → Nat → Finset Nat →
    List (Nat × Nat)
  | [], _, _ => []
  | p :: rest, i, used =>
    let m := findBestMatch p oldPs used
    if 0 ≤ m.index then
      (i, m.index.toNat) :: gdMatches oldPs rest (i + 1) (insert m.index.toNat used)
    else
      gdMatches oldPs rest (i + 1) used

/-- Join a list of sentences with single spaces, the way the accumulation
`current += (current ? ' ' : '') + sentence` builds a paragraph buffer. -/
def joinSp : List (List Char) → List Char
  | [] => []
  | [s] => s
  | s :: rest => s ++ ' ' :: joinSp rest

/-- Sentence decomposition: `SD text ss` says the scanner's split of `text`
is `ss`, recording for each sentence that it ends in a terminal character
(when followed by a separator), that the separator is a non-empty whitespace
run followed by an upper-case letter, and that no boundary fires inside the
sentence (relative to its continuation). -/
inductive SD : List Char → List (List Char) → Prop where
  | single : ∀ s, (∀ u c v, s = u ++ c :: v → lookBoundary u c v = false) → SD s [s]
  | step : ∀ s w rest ss,
      (∃ p, s.getLast? = some p ∧ isTermChar p = true) →
      w ≠ [] → (∀ x ∈ w, isWsChar x = true) →
      (∃ d r2, rest = d :: r2 ∧ isUpperChar d = true) →
      (∀ u c v, s = u ++ c :: v → lookBoundary u c (v ++ w ++ rest) = false) →
      SD rest ss → SD (s ++ w ++ rest) (s :: ss)

/-- The `splitIntoParagraphs` grouping loop expressed over sentence blocks:
`cur` carries the joined buffer (the invariant is `cur = joinSp curB`),
mirroring `siLoop`'s branches. -/
def gbLoop : List Char → List (List Char) → List (List Char) → List (List (List Char))
  | _, curB, [] => if curB = [] then [] else [curB]
  | cur, curB, s :: rest =>
    if cur.length + s.length > 500 ∧ curB ≠ [] then
      curB :: gbLoop s [s] rest
    else
      gbLoop (if curB = [] then s else cur ++ ' ' :: s) (curB ++ [s]) rest

/-- Within one paragraph block, every successive append was allowed: the
buffer-plus-sentence length never exceeded 500 while the buffer was
non-empty. -/
def blockOkAux : List Char → List (List Char) → Prop
  | _, [] => True
  | cur, s :: rest =>
    ¬(cur.length + s.length > 500 ∧ cur.length > 0) ∧ blockOkAux (cur ++ ' ' :: s) rest

def blockOk : List (List Char) → Prop
  | [] => True
  | s :: rest => blockOkAux s rest

/-- The buffer accumulated by appending sentences with separating spaces. -/
def jAcc (cur : List Char) : List (List Char) → List Char
  | [] => cur
  | s :: rest => jAcc (cur ++ ' ' :: s) rest

/-- The cap rule over a whole partition into blocks: each block's internal
appends were allowed, and at each block boundary the closed buffer plus the
next block's first sentence exceeded 500 characters with a non-empty
buffer. -/
def blocksOk : List (List (List Char)) → Prop
  | [] => True
  | [b] => blockOk b
  | b :: b2 :: rest => blockOk b ∧
      ((joinSp b).length + (b2.headD []).length > 500 ∧ 0 < (joinSp b).length) ∧
      blocksOk (b2 :: rest)

/-! ## Theorems -/

theorem splitSpace_ne_nil (s : List Char) : splitSpace s ≠ [] := by
  match s with
  | [] => simp [splitSpace]
  | c :: cs =>
    rw [splitSpace]
    split
    · simp
    · split <;> simp

theorem wordSet_nonempty (s : List Char) : (wordSet s).Nonempty := by
  have h := splitSpace_ne_nil (normalizeForMatching s)
  match hm : splitSpace (normalizeForMatching s) with
  | [] => exact absurd hm h
  | t :: ts =>
    exact ⟨t, by simp [wordSet, hm]⟩

theorem union_card_pos (a b : List Char) : 0 < (wordSet a ∪ wordSet b).card :=
  Finset.card_pos.mpr ((wordSet_nonempty a).mono Finset.subset_union_left)

theorem matchScore_nonneg (a b : List Char) : 0 ≤ matchScore a b := by
  unfold matchScore
  positivity

theorem matchScore_le_one (a b : List Char) : matchScore a b ≤ 1 := by
  unfold matchScore
  rw [div_le_one (by exact_mod_cast union_card_pos a b)]
  exact_mod_cast Finset.card_le_card
    (Finset.inter_subset_left.trans Finset.subset_union_left)

theorem matchScore_self (a : List Char) : matchScore a a = 1 := by
  unfold matchScore
  rw [Finset.inter_self, Finset.union_self]
  have h : (0 : ℚ) < (wordSet a).card := by
    exact_mod_cast Finset.card_pos.mpr (wordSet_nonempty a)
  exact div_self (ne_of_gt h)

theorem fbmGo_inv (para : List Char) (used : Finset Nat) (ps : List (List Char)) :
    ∀ (l : List (List Char)) (i : Nat) (st : ℚ × Int),
      ps.drop i = l → FbmInv para used ps i st →
      FbmInv para used ps (i + l.length) (fbmGo para used l i st) := by
  intro l
  induction l with
  | nil => intro i st _ hInv; simpa [fbmGo] using hInv
  | cons p rest ih =>
    intro i st hdrop hInv
    have hip : ps.getD i [] = p := by
      have h0 : ps[i]? = some p := by
        have := List.getElem?_drop ps i 0
        rw [hdrop] at this
        simpa using this.symm
      simp [List.getD, h0]
    have hrest : ps.drop (i + 1) = rest := by
      have : ps.drop (i + 1) = (ps.drop i).drop 1 := by
        rw [List.drop_drop]
      rw [this, hdrop]
      simp
    rw [fbmGo]
    have hlen : i + (p :: rest).length = (i + 1) + rest.length := by
      simp [List.length_cons]; omega
    rw [hlen]
    apply ih (i + 1) _ hrest
    -- establish the invariant for the next index
    by_cases hu : i ∈ used
    · simp only [hu, if_true]
      obtain ⟨hnn, hInv⟩ := hInv
      refine ⟨hnn, ?_⟩
      rcases hInv with ⟨h1, h2, h3⟩ | ⟨j, hj, h1, h2, h3, h4, h5, h6⟩
      · exact Or.inl ⟨h1, h2, fun k hk hku => by
          rcases Nat.lt_succ_iff_lt_or_eq.mp hk with h | h
          · exact h3 k h hku
          · exact absurd (h ▸ hu) hku⟩
      · exact Or.inr ⟨j, Nat.lt_succ_of_lt hj, h1, h2, h3, h4,
          fun k hk hku => by
            rcases Nat.lt_succ_iff_lt_or_eq.mp hk with h | h
            · exact h5 k h hku
            · exact absurd (h ▸ hu) hku,
          h6⟩
    · simp only [hu, if_false]
      obtain ⟨hnn, hInv⟩ := hInv
      by_cases hcond : matchScore para p > st.1 ∧ matchScore para p > 3/10
      · rw [if_pos hcond]
        refine ⟨le_of_lt (lt_of_le_of_lt hnn hcond.1),
          Or.inr ⟨i, Nat.lt_succ_self i, rfl, by rw [hip], hu,
            by rw [hip]; exact hcond.2, ?_, ?_⟩⟩
        · intro k hk hku
          rcases Nat.lt_succ_iff_lt_or_eq.mp hk with h | h
          · rw [hip]
            rcases hInv with ⟨_, _, h3⟩ | ⟨j, _, _, h2, _, _, h5, _⟩
            · exact le_of_lt (lt_of_le_of_lt (h3 k h hku) hcond.2)
            · exact le_of_lt (lt_of_le_of_lt (le_trans (h5 k h hku) h2.ge) hcond.1)
          · subst h
            rw [hip]
        · intro k hk hku
          rw [hip]
          rcases hInv with ⟨_, _, h3⟩ | ⟨j, _, _, h2, _, _, h5, _⟩
          · exact lt_of_le_of_lt (h3 k hk hku) hcond.2
          · exact lt_of_le_of_lt (le_trans (h5 k hk hku) h2.ge) hcond.1
      · rw [if_neg hcond]
        refine ⟨hnn, ?_⟩
        have hneg : matchScore para p ≤ st.1 ∨ matchScore para p ≤ 3/10 := by
          by_contra hc
          push_neg at hc
          exact hcond ⟨hc.1, hc.2⟩
        rcases hInv with ⟨h1, h2, h3⟩ | ⟨j, hj, h1, h2, h3, h4, h5, h6⟩
        · refine Or.inl ⟨h1, h2, fun k hk hku => ?_⟩
          rcases Nat.lt_succ_iff_lt_or_eq.mp hk with h | h
          · exact h3 k h hku
          · subst h
            rw [hip]
            rcases hneg with h | h
            · exact le_trans (h2 ▸ h) (by norm_num)
            · exact h
        · refine Or.inr ⟨j, Nat.lt_succ_of_lt hj, h1, h2, h3, h4, fun k hk hku => ?_, h6⟩
          rcases Nat.lt_succ_iff_lt_or_eq.mp hk with h | h
          · exact h5 k h hku
          · subst h
            rw [hip]
            rcases hneg with h | h
            · exact h2 ▸ h
            · exact le_of_lt (lt_of_le_of_lt h h4)

theorem findBestMatch_inv (para : List Char) (ps : List (List Char)) (used : Finset Nat) :
    FbmInv para used ps ps.length (fbmGo para used ps 0 (0, -1)) := by
  have h := fbmGo_inv para used ps ps 0 (0, -1) (by simp)
    ⟨le_refl 0, Or.inl ⟨rfl, rfl, fun k hk _ => absurd hk (Nat.not_lt_zero k)⟩⟩
  simpa using h

/-- Characterization of `findBestMatch`: either nothing scored above the
threshold and the result is `(-1, 0)`, or the result is the first-found
maximum-scoring unused candidate, strictly above the threshold. -/
theorem fbm_cases (para : List Char) (ps : List (List Char)) (used : Finset Nat) :
    ((findBestMatch para ps used).index = -1 ∧ (findBestMatch para ps used).score = 0 ∧
      ∀ k, k < ps.length → k ∉ used → matchScore para (ps.getD k []) ≤ 3/10) ∨
    (∃ j : Nat, j < ps.length ∧ (findBestMatch para ps used).index = (j : Int) ∧
      (findBestMatch para ps used).score = matchScore para (ps.getD j []) ∧ j ∉ used ∧
      3/10 < matchScore para (ps.getD j []) ∧
      (∀ k, k < ps.length → k ∉ used →
        matchScore para (ps.getD k []) ≤ matchScore para (ps.getD j [])) ∧
      (∀ k, k < j → k ∉ used →
        matchScore para (ps.getD k []) < matchScore para (ps.getD j []))) := by
  have h := (findBestMatch_inv para ps used).2
  unfold findBestMatch
  rcases h with ⟨h1, h2, h3⟩ | ⟨j, hj, h1, h2, h3, h4, h5, h6⟩
  · exact Or.inl ⟨h1, h2, h3⟩
  · exact Or.inr ⟨j, hj, h1, h2, h3, h4, h5, h6⟩

/-- When scanning a list of identical candidates with the first `i` consumed,
`findBestMatch` for the `i`-th paragraph selects index `i` with score 1. -/
theorem fbm_identity (ps : List (List Char)) (i : Nat) (hi : i < ps.length) :
    findBestMatch (ps.getD i []) ps (Finset.range i) = ⟨(i : Int), 1⟩ := by
  have hSi : matchScore (ps.getD i []) (ps.getD i []) = 1 := matchScore_self _
  rcases fbm_cases (ps.getD i []) ps (Finset.range i) with ⟨_, _, h3⟩ |
    ⟨j, hj, h1, h2, h3, _, h5, h6⟩
  · have := h3 i hi (by simp)
    rw [hSi] at this
    norm_num at this
  · have hji : j = i := by
      by_contra hne
      rcases Nat.lt_or_ge j i with hlt | hge
      · exact h3 (Finset.mem_range.mpr hlt)
      · have hij : i < j := lt_of_le_of_ne hge (Ne.symm hne)
        have hlt := h6 i hij (by simp)
        rw [hSi] at hlt
        exact absurd (lt_of_lt_of_le hlt (matchScore_le_one _ _)) (lt_irrefl 1)
    subst hji
    have h2' : (findBestMatch (ps.getD j []) ps (Finset.range j)).score = 1 := by
      rw [h2, hSi]
    cases hEq : findBestMatch (ps.getD j []) ps (Finset.range j) with
    | mk idx sc =>
      rw [hEq] at h1 h2'
      simp only at h1 h2'
      simp [h1, h2']

theorem eqTok_refl (a : List Char) : eqTok a a = true := by
  simp [eqTok]

theorem commonPrefixLen_forall₂ :
    ∀ {l l' : List (List Char)}, List.Forall₂ (fun a b => eqTok a b = true) l l' →
      commonPrefixLen l l' = l.length := by
  intro l l' h
  induction h with
  | nil => simp [commonPrefixLen]
  | cons hab _ ih => rw [commonPrefixLen, if_pos hab, ih]; simp

/-- jsdiff's identity fast path: when the two token lists are pointwise
comparator-equal, the seeded common run already covers everything and the
result is one unchanged component holding the whole new token list. -/
theorem diffArraysModel_pointwise {oldT newT : List (List Char)}
    (h : List.Forall₂ (fun a b => eqTok a b = true) newT oldT) :
    diffArraysModel oldT newT = [⟨newT, DTag.common⟩] := by
  unfold diffArraysModel
  have hcc : commonPrefixLen newT oldT = newT.length := commonPrefixLen_forall₂ h
  have hlen : newT.length = oldT.length := h.length_eq
  rw [if_pos]
  exact ⟨le_of_eq hcc.symm, le_of_eq (hlen ▸ hcc.symm)⟩

theorem renderParts_common_single (v : List (List Char)) :
    renderParts [⟨v, DTag.common⟩] =
      ⟨escapeHtml v.flatten, false, nonWsLen v.flatten, nonWsLen v.flatten⟩ := by
  simp [renderParts, renderStep]

/-- A pair whose token lists are pointwise comparator-equal renders with no
marked insertion or deletion. -/
theorem diffParagraphs_pointwise {p q : List Char}
    (h : List.Forall₂ (fun a b => eqTok a b = true) (splitWs q) (splitWs p)) :
    (diffParagraphs p q).hasChanges = false ∧
      (diffParagraphs p q).type = PairType.changed := by
  unfold diffParagraphs diffChanges
  rw [diffArraysModel_pointwise h, renderParts_common_single]
  simp

theorem diffParagraphs_self (p : List Char) :
    (diffParagraphs p p).hasChanges = false :=
  (diffParagraphs_pointwise (List.forall₂_same.mpr (fun a _ => eqTok_refl a))).1

theorem pairEntries_self (p : List Char) : pairEntries p p = [] := by
  simp [pairEntries, diffParagraphs_self]

theorem gdGo_identity (ps : List (List Char)) :
    ∀ (l : List (List Char)) (i : Nat), ps.drop i = l → i ≤ ps.length →
      gdGo ps l (Finset.range i) = ([], Finset.range ps.length) := by
  intro l
  induction l with
  | nil =>
    intro i hdrop hile
    have : ps.length ≤ i := by
      by_contra hc
      push_neg at hc
      exact absurd hdrop (by simp [List.drop_eq_nil_iff]; omega)
    have hieq : i = ps.length := le_antisymm hile this
    subst hieq
    rw [gdGo]
  | cons p rest ih =>
    intro i hdrop _
    have hi : i < ps.length := by
      by_contra hc
      push_neg at hc
      rw [List.drop_eq_nil_of_le hc] at hdrop
      exact List.noConfusion hdrop
    have hip : ps.getD i [] = p := by
      have h0 : ps[i]? = some p := by
        have := List.getElem?_drop ps i 0
        rw [hdrop] at this
        simpa using this.symm
      simp [List.getD, h0]
    have hrest : ps.drop (i + 1) = rest := by
      have hdd : ps.drop (i + 1) = (ps.drop i).drop 1 := by rw [List.drop_drop]
      rw [hdd, hdrop]
      simp
    rw [gdGo]
    have hfbm : findBestMatch p ps (Finset.range i) = ⟨(i : Int), 1⟩ := by
      rw [← hip]
      exact fbm_identity ps i hi
    simp only [hfbm]
    rw [if_pos (by exact Int.ofNat_nonneg i)]
    simp only [Int.toNat_natCast, hip, pairEntries_self, ← Finset.range_succ]
    rw [ih (i + 1) hrest hi]
    simp [hip, pairEntries_self]

theorem removedEntries_all_used (ps : List (List Char)) :
    removedEntries ps (Finset.range ps.length) = [] := by
  unfold removedEntries
  rw [List.filterMap_eq_nil_iff]
  intro i hi
  rw [if_neg]
  simp only [not_not]
  exact Finset.mem_range.mpr (List.mem_range.mp hi)

/-- **C1** Identity diff: for every non-empty text `T`, the full
`generateDiff` pipeline on `(T, T)` — segmentation, alignment, per-pair
diffing — yields an empty sequence of diff entries. -/
theorem c1_identity_diff (T : List Char) (_h : T ≠ []) : generateDiff T T = [] := by
  unfold generateDiff
  simp only [← Finset.range_zero]
  rw [gdGo_identity (splitIntoParagraphs T) (splitIntoParagraphs T) 0 (by simp) (Nat.zero_le _)]
  simp [removedEntries_all_used]

/-- Witness for C1 at the concrete text `"Hello. World."`. -/
theorem c1_identity_diff_witness :
    "Hello. World.".toList ≠ [] ∧
      generateDiff "Hello. World.".toList "Hello. World.".toList = [] :=
  ⟨by decide, c1_identity_diff "Hello. World.".toList (by decide)⟩

/-- **C2** Matching threshold is strict: a candidate scoring exactly 0.3 is
never selected by `findBestMatch`; a candidate scoring strictly above 0.3 is
selected when no candidate scores higher; among equal-scoring candidates the
lowest-index one is kept. -/
theorem c2_matching_threshold (para : List Char) (ps : List (List Char)) (used : Finset Nat) :
    (∀ j : Nat, matchScore para (ps.getD j []) = 3/10 →
      (findBestMatch para ps used).index ≠ (j : Int)) ∧
    (∀ j : Nat, j < ps.length → j ∉ used → 3/10 < matchScore para (ps.getD j []) →
      (∀ k, k < ps.length → k ∉ used →
        matchScore para (ps.getD k []) ≤ matchScore para (ps.getD j [])) →
      0 ≤ (findBestMatch para ps used).index ∧
      (findBestMatch para ps used).score = matchScore para (ps.getD j []) ∧
      ((∀ k, k < j → k ∉ used →
          matchScore para (ps.getD k []) < matchScore para (ps.getD j [])) →
        (findBestMatch para ps used).index = (j : Int))) := by
  constructor
  · intro j hexact hsel
    rcases fbm_cases para ps used with ⟨h1, _, _⟩ | ⟨j0, _, h1, _, _, h4, _, _⟩
    · rw [h1] at hsel
      omega
    · rw [h1] at hsel
      have : j0 = j := by exact_mod_cast hsel
      subst this
      rw [hexact] at h4
      exact lt_irrefl _ h4
  · intro j hj hju hgt hmax
    rcases fbm_cases para ps used with ⟨_, _, h3⟩ | ⟨j0, hj0, h1, h2, h3, h4, h5, h6⟩
    · exact absurd (h3 j hj hju) (not_le.mpr hgt)
    · have heq : matchScore para (ps.getD j0 []) = matchScore para (ps.getD j []) :=
        le_antisymm (hmax j0 hj0 h3) (h5 j hj hju)
      refine ⟨by rw [h1]; exact Int.ofNat_nonneg j0, by rw [h2, heq], ?_⟩
      intro hfirst
      have hjj : j0 = j := by
        by_contra hne
        rcases Nat.lt_or_ge j0 j with hlt | hge
        · exact absurd (heq ▸ hfirst j0 hlt h3) (lt_irrefl _)
        · have hlt : j < j0 := lt_of_le_of_ne hge (Ne.symm hne)
          exact absurd (heq ▸ h6 j hlt hju) (lt_irrefl _)
      rw [h1, hjj]

theorem matchScore_eq_div (a b : List Char) (m n : Nat)
    (hm : (wordSet a ∩ wordSet b).card = m) (hn : (wordSet a ∪ wordSet b).card = n) :
    matchScore a b = (m : ℚ) / (n : ℚ) := by
  unfold matchScore
  rw [hm, hn]

/-- Witness for C2: `"a b c"` scores exactly 3/10 against the first candidate
(never selected) and 1 against the second, which is selected. -/
theorem c2_matching_threshold_witness :
    (findBestMatch "a b c".toList
      ["a b c d e f g h i j".toList, "a b c".toList] ∅).index ≠ ((0 : Nat) : Int) ∧
    (findBestMatch "a b c".toList
      ["a b c d e f g h i j".toList, "a b c".toList] ∅).index = ((1 : Nat) : Int) := by
  have hs0 : matchScore "a b c".toList
      (["a b c d e f g h i j".toList, "a b c".toList].getD 0 []) = 3/10 := by
    rw [matchScore_eq_div _ _ 3 10 (by decide) (by decide)]
    norm_num
  have hs1 : matchScore "a b c".toList
      (["a b c d e f g h i j".toList, "a b c".toList].getD 1 []) = 1 := by
    rw [matchScore_eq_div _ _ 3 3 (by decide) (by decide)]
    norm_num
  have h := c2_matching_threshold "a b c".toList
    ["a b c d e f g h i j".toList, "a b c".toList] ∅
  refine ⟨h.1 0 hs0, ?_⟩
  refine (h.2 1 (by decide) (by decide) (by rw [hs1]; norm_num) ?_).2.2 ?_
  · intro k hk _
    simp only [List.length_cons, List.length_nil] at hk
    interval_cases k
    · rw [hs0, hs1]
      norm_num
    · exact le_refl _
  · intro k hk _
    interval_cases k
    rw [hs0, hs1]
    norm_num

theorem trim_allWs (s : List Char) (h : ∀ c ∈ s, isWsChar c = true) :
    trimStr s = [] := by
  unfold trimStr
  rw [List.dropWhile_eq_nil_iff.mpr h]
  simp

theorem collapseWs_allWs :
    ∀ (s : List Char), (∀ c ∈ s, isWsChar c = true) →
      ∀ x ∈ collapseWs s, isWsChar x = true := by
  intro s
  induction s with
  | nil => intro _ x hx; simp [collapseWs] at hx
  | cons c cs ih =>
    intro h x hx
    cases cs with
    | nil =>
      rw [collapseWs, if_pos (h c (by simp))] at hx
      simp only [List.mem_singleton] at hx
      subst hx
      decide
    | cons d cs' =>
      rw [collapseWs, if_pos (h c (by simp)), if_pos (h d (by simp))] at hx
      exact ih (fun y hy => h y (List.mem_cons_of_mem _ hy)) x hx

theorem allWs_collapse_trim (s : List Char) (h : ∀ c ∈ s, isWsChar c = true) :
    trimStr (collapseWs s) = [] :=
  trim_allWs _ (collapseWs_allWs s h)

/-- A character outside `\w` is untouched by the ASCII lower-casing
`Char.toLower` (the ASCII upper range is inside `\w`). -/
theorem toLower_of_not_word {d : Char} (h : isWordChar d = false) :
    Char.toLower d = d := by
  unfold Char.toLower
  rw [if_neg]
  intro hc
  unfold isWordChar at h
  simp only [Bool.or_eq_false_iff, Bool.and_eq_false_iff, decide_eq_false_iff_not,
    not_le] at h
  obtain ⟨⟨⟨hA, _⟩, _⟩, _⟩ := h
  rcases hA with hA | hA <;> omega

theorem nonWsLen_zero_iff (s : List Char) :
    nonWsLen s = 0 ↔ ∀ c ∈ s, isWsChar c = true := by
  simp [nonWsLen, List.length_eq_zero, List.filter_eq_nil_iff]

theorem trim_ne_nil_pos (s : List Char) (h : trimStr s ≠ []) : 0 < nonWsLen s := by
  by_contra hc
  push_neg at hc
  have hz : nonWsLen s = 0 := Nat.le_zero.mp hc
  have hws := (nonWsLen_zero_iff s).mp hz
  apply h
  unfold trimStr
  rw [List.dropWhile_eq_nil_iff.mpr (fun x hx => hws x hx)]
  simp

theorem renderFold_total_pos : ∀ (parts : List DPart) (st : RenderSt),
    (st.hasReal = true → 0 < st.total) →
    ((parts.foldl renderStep st).hasReal = true → 0 < (parts.foldl renderStep st).total) := by
  intro parts
  induction parts with
  | nil => intro st h; simpa using h
  | cons p rest ih =>
    intro st h
    rw [List.foldl_cons]
    apply ih
    cases htag : p.tag <;> simp only [renderStep, htag]
    · intro h'
      have hst := h h'
      show 0 < st.total + _
      omega
    · split
      · intro _
        have hpos := trim_ne_nil_pos _ (by assumption)
        show 0 < st.total + _
        omega
      · exact h
    · split
      · intro _
        have hpos := trim_ne_nil_pos _ (by assumption)
        show 0 < st.total + _
        omega
      · exact h

/-- **C3** Classification boundary: a matched pair with at least one marked
insertion or deletion is classified `replaced` exactly when
`unchangedChars / totalChars < 0.5` (equivalently `2·unchanged < total`, so a
ratio of exactly 0.5 is `changed`), and the ratio is defined as 1 when
`totalChars = 0`. -/
theorem c3_classification_boundary (oldP newP : List Char) :
    (∀ u : Nat, unchangedRatio u 0 = 1) ∧
    ((renderParts (diffChanges oldP newP)).hasReal = true →
      0 < (renderParts (diffChanges oldP newP)).total ∧
      ((diffParagraphs oldP newP).type = PairType.replaced ↔
        unchangedRatio (renderParts (diffChanges oldP newP)).unchanged
          (renderParts (diffChanges oldP newP)).total < 1/2) ∧
      ((diffParagraphs oldP newP).type = PairType.replaced ↔
        2 * (renderParts (diffChanges oldP newP)).unchanged <
          (renderParts (diffChanges oldP newP)).total)) := by
  constructor
  · intro u
    simp [unchangedRatio]
  · intro hr
    have htot : 0 < (renderParts (diffChanges oldP newP)).total :=
      renderFold_total_pos (diffChanges oldP newP) ⟨[], false, 0, 0⟩ (by simp) hr
    have htype : (diffParagraphs oldP newP).type = PairType.replaced ↔
        unchangedRatio (renderParts (diffChanges oldP newP)).unchanged
          (renderParts (diffChanges oldP newP)).total < 1/2 := by
      unfold diffParagraphs
      simp only [hr, Bool.true_and]
      constructor
      · intro ht
        by_contra hc
        rw [if_neg (by simpa using hc)] at ht
        exact PairType.noConfusion ht
      · intro hlt
        rw [if_pos (by simpa using hlt)]
    refine ⟨htot, htype, htype.trans ?_⟩
    unfold unchangedRatio
    rw [if_pos htot]
    rw [div_lt_iff₀ (by exact_mod_cast htot)]
    constructor
    · intro h
      have h2 : ((2 * (renderParts (diffChanges oldP newP)).unchanged : Nat) : ℚ) <
          ((renderParts (diffChanges oldP newP)).total : ℚ) := by
        push_cast
        linarith
      exact_mod_cast h2
    · intro h
      have h2 : ((2 * (renderParts (diffChanges oldP newP)).unchanged : Nat) : ℚ) <
          ((renderParts (diffChanges oldP newP)).total : ℚ) := by exact_mod_cast h
      push_cast at h2
      linarith

/-- Witness for C3 at the concrete pair `("cat", "dog")`: one deletion and one
insertion, no unchanged content, classified `replaced`. -/
theorem c3_classification_boundary_witness :
    (diffParagraphs "cat".toList "dog".toList).type = PairType.replaced ∧
      2 * (renderParts (diffChanges "cat".toList "dog".toList)).unchanged <
        (renderParts (diffChanges "cat".toList "dog".toList)).total := by
  have h := (c3_classification_boundary "cat".toList "dog".toList).2 (by decide)
  exact ⟨h.2.2.mpr (by decide), by decide⟩

theorem splitWs_ne_nil (s : List Char) : splitWs s ≠ [] := by
  match s with
  | [] => simp [splitWs]
  | c :: cs =>
    rw [splitWs]
    split
    · split <;> simp
    · split <;> simp

theorem splitWs_flatten (s : List Char) : (splitWs s).flatten = s := by
  induction s with
  | nil => simp [splitWs]
  | cons c cs ih =>
    rw [splitWs]
    by_cases hc : isWsChar c
    · rw [if_pos hc]
      cases hsp : splitWs cs with
      | nil => exact absurd hsp (splitWs_ne_nil cs)
      | cons t rest =>
        rw [hsp] at ih
        cases t with
        | nil =>
          cases rest with
          | nil => simpa using ih
          | cons w rest' => simpa using ih
        | cons x t' => simpa using ih
    · rw [if_neg hc]
      cases hsp : splitWs cs with
      | nil => exact absurd hsp (splitWs_ne_nil cs)
      | cons t rest =>
        rw [hsp] at ih
        simpa using ih

theorem ws_not_word {c : Char} (h : isWsChar c = true) : isWordChar c = false := by
  unfold isWsChar at h
  unfold isWordChar
  simp only [Bool.or_eq_true, beq_iff_eq, Bool.and_eq_true, decide_eq_true_eq] at h
  simp only [Bool.or_eq_false_iff, Bool.and_eq_false_iff, decide_eq_false_iff_not,
    not_le, beq_eq_false_iff_ne, ne_eq]
  omega

/-- A whitespace character is untouched by JS lowercasing: it is neither of
the two special-cased code points and is outside the ASCII upper range. -/
theorem toLowerJS_ws {c : Char} (h : isWsChar c = true) : toLowerJS c = [c] := by
  have h' := h
  unfold isWsChar at h'
  simp only [Bool.or_eq_true, beq_iff_eq, Bool.and_eq_true, decide_eq_true_eq] at h'
  unfold toLowerJS
  rw [if_neg (by omega), if_neg (by omega), toLower_of_not_word (ws_not_word h)]

/-- A token whose JS-lowercased form contains no word characters normalizes
to the empty string. -/
theorem normalizeWord_allNonWordLow {t : List Char}
    (h : ∀ c ∈ t, ∀ d ∈ toLowerJS c, isWordChar d = false) :
    normalizeWord t = [] := by
  unfold normalizeWord
  rw [List.filter_eq_nil_iff]
  intro a ha
  obtain ⟨l, hl, hal⟩ := List.mem_flatten.mp ha
  obtain ⟨d, hd, hdl⟩ := List.mem_map.mp hl
  simp [h d hd a (hdl ▸ hal)]

theorem normalizeWord_allWs {t : List Char} (h : ∀ c ∈ t, isWsChar c = true) :
    normalizeWord t = [] :=
  normalizeWord_allNonWordLow (fun c hc d hd => by
    rw [toLowerJS_ws (h c hc)] at hd
    rw [List.mem_singleton.mp hd]
    exact ws_not_word (h c hc))

/-- Counterexample to C9's final conjunct as stated: the paragraphs
`"K"` (KELVIN SIGN) and `"—"` each contain no word characters, yet JS
lowercases KELVIN SIGN to the word character `k` before the `[^\w\s]` strip,
so the word sets are `{"k"}` and `{""}`: the pair scores 0, not 1, and is
not matched (index stays `-1`). -/
theorem c9_no_division_by_zero_cex :
    (∀ c ∈ [ 'K' ], isWordChar c = false) ∧
    (∀ c ∈ "—".toList, isWordChar c = false) ∧
    matchScore [ 'K' ] "—".toList = 0 ∧
    (findBestMatch [ 'K' ] ["—".toList] ∅).index = -1 := by
  have hsc : matchScore [ 'K' ] "—".toList = 0 := by
    rw [matchScore_eq_div _ _ 0 2 (by decide) (by decide)]
    norm_num
  refine ⟨by decide, by decide, hsc, ?_⟩
  rcases fbm_cases [ 'K' ] ["—".toList] ∅ with ⟨h1, _, _⟩ |
    ⟨j, hj, _, _, _, h4, _, _⟩
  · exact h1
  · simp only [List.length_cons, List.length_nil] at hj
    interval_cases j
    rw [show (["—".toList].getD 0 []) = "—".toList from rfl, hsc] at h4
    norm_num at h4

/-- **C9 (amended)** The Jaccard computation in `findBestMatch` never divides
by zero: `normalizeForMatching` followed by `split(' ')` always yields at
least one token, so the union of the two word sets is nonempty for every
pair of paragraphs; and two paragraphs whose JS-lowercased forms contain no
word characters score 1.0 and are matched.  (As originally stated — with the
no-word-characters hypothesis on the paragraphs' own characters — the claim
fails on U+212A, a non-word character whose lowercase form is the word
character `k`: see the counterexample.) -/
theorem c9_no_division_by_zero :
    (∀ p q : List Char, 0 < (wordSet p ∪ wordSet q).card) ∧
    (∀ p q : List Char, (∀ c ∈ p, ∀ d ∈ toLowerJS c, isWordChar d = false) →
      (∀ c ∈ q, ∀ d ∈ toLowerJS c, isWordChar d = false) →
      matchScore p q = 1 ∧ (findBestMatch p [q] ∅).index = 0 ∧
        (findBestMatch p [q] ∅).score = 1) := by
  have hnorm : ∀ p : List Char, (∀ c ∈ p, ∀ d ∈ toLowerJS c, isWordChar d = false) →
      normalizeForMatching p = [] := by
    intro p hp
    unfold normalizeForMatching
    apply allWs_collapse_trim
    intro c hc
    rw [List.mem_filter] at hc
    obtain ⟨hc1, hc2⟩ := hc
    obtain ⟨l, hl, hcl⟩ := List.mem_flatten.mp hc1
    obtain ⟨d, hd, hdl⟩ := List.mem_map.mp hl
    have hw : isWordChar c = false := hp d hd c (hdl ▸ hcl)
    rw [hw] at hc2
    simpa using hc2
  have hscore1 : ∀ p q : List Char,
      (∀ c ∈ p, ∀ d ∈ toLowerJS c, isWordChar d = false) →
      (∀ c ∈ q, ∀ d ∈ toLowerJS c, isWordChar d = false) → matchScore p q = 1 := by
    intro p q hp hq
    have hwp : wordSet p = wordSet q := by
      unfold wordSet
      rw [hnorm p hp, hnorm q hq]
    unfold matchScore
    rw [hwp, Finset.inter_self, Finset.union_self]
    have h : (0 : ℚ) < (wordSet q).card := by
      exact_mod_cast Finset.card_pos.mpr (wordSet_nonempty q)
    exact div_self (ne_of_gt h)
  refine ⟨fun p q => union_card_pos p q, fun p q hp hq => ?_⟩
  have hs := hscore1 p q hp hq
  have hfbm : findBestMatch p [q] ∅ = ⟨0, 1⟩ := by
    unfold findBestMatch
    simp only [fbmGo, Finset.not_mem_empty, if_false, hs]
    rw [if_pos (by norm_num)]
    rfl
  exact ⟨hs, by rw [hfbm], by rw [hfbm]⟩

/-- Witness for the amended C9: the paragraphs `"—"` and `"!?"` lowercase to
themselves with no word characters, score 1, and are matched. -/
theorem c9_no_division_by_zero_witness :
    (∀ c ∈ "—".toList, ∀ d ∈ toLowerJS c, isWordChar d = false) ∧
    matchScore "—".toList "!?".toList = 1 ∧
      (findBestMatch "—".toList ["!?".toList] ∅).index = 0 := by
  have h := c9_no_division_by_zero.2 "—".toList "!?".toList (by decide) (by decide)
  exact ⟨by decide, h.1, h.2.1⟩

theorem dropWhile_head_not {α : Type} (p : α → Bool) :
    ∀ (s : List α) (d : α) (r : List α), s.dropWhile p = d :: r → p d = false := by
  intro s
  induction s with
  | nil => intro d r h; simp [List.dropWhile] at h
  | cons a s' ih =>
    intro d r h
    rw [List.dropWhile_cons] at h
    split at h
    · exact ih d r h
    · cases h
      simp_all

/-- A head-position non-whitespace character makes `splitWs` start with a
non-empty token headed by that character. -/
theorem splitWs_head_nonws (c : Char) (cs : List Char) (h : isWsChar c = false) :
    ∃ t r, splitWs (c :: cs) = (c :: t) :: r := by
  rw [splitWs, if_neg (by simp [h])]
  cases hsp : splitWs cs with
  | nil => exact ⟨[], [], rfl⟩
  | cons t rest => exact ⟨t, rest, rfl⟩

theorem splitWs_single (t : List Char) (htn : ∀ c ∈ t, isWsChar c = false) :
    splitWs t = [t] := by
  induction t with
  | nil => simp [splitWs]
  | cons c t' ih =>
    rw [splitWs, if_neg (by simp [htn c (by simp)])]
    rw [ih (fun x hx => htn x (List.mem_cons_of_mem _ hx))]

theorem splitWs_ws_append (w rest : List Char) (hw : w ≠ [])
    (hws : ∀ c ∈ w, isWsChar c = true)
    (hrest : rest = [] ∨ ∃ c cs, rest = c :: cs ∧ isWsChar c = false) :
    splitWs (w ++ rest) = [] :: w :: splitWs rest := by
  induction w with
  | nil => exact absurd rfl hw
  | cons d w' ih =>
    cases w' with
    | nil =>
      simp only [List.cons_append, List.nil_append]
      rw [splitWs, if_pos (hws d (by simp))]
      rcases hrest with hre | ⟨c, cs, hre, hcw⟩
      · subst hre
        simp [splitWs]
      · subst hre
        obtain ⟨t, r, hsp⟩ := splitWs_head_nonws c cs hcw
        rw [hsp]
    | cons d2 w'' =>
      have ihh := ih (by simp) (fun x hx => hws x (List.mem_cons_of_mem _ hx))
      simp only [List.cons_append] at ihh ⊢
      rw [splitWs, if_pos (hws d (by simp)), ihh]

theorem splitWs_token_append (t w rest : List Char) (ht : t ≠ [])
    (htn : ∀ c ∈ t, isWsChar c = false) (hw : w ≠ [])
    (hws : ∀ c ∈ w, isWsChar c = true)
    (hrest : rest = [] ∨ ∃ c cs, rest = c :: cs ∧ isWsChar c = false) :
    splitWs (t ++ w ++ rest) = t :: w :: splitWs rest := by
  induction t with
  | nil => exact absurd rfl ht
  | cons c t' ih =>
    cases t' with
    | nil =>
      simp only [List.cons_append, List.nil_append]
      rw [splitWs, if_neg (by simp [htn c (by simp)])]
      rw [splitWs_ws_append w rest hw hws hrest]
    | cons c2 t'' =>
      have ihh := ih (by simp) (fun x hx => htn x (List.mem_cons_of_mem _ hx))
      simp only [List.cons_append] at ihh ⊢
      rw [splitWs, if_neg (by simp [htn c (by simp)]), ihh]

theorem nonWsTokens_of_nonws (t : List Char) (h : ∀ c ∈ t, isWsChar c = false) :
    nonWsTokens t = if t = [] then [] else [t] := by
  unfold nonWsTokens
  rw [splitWs_single t h]
  cases t with
  | nil => simp
  | cons c t' =>
    rw [if_neg (by simp)]
    have hc : (!(c :: t').isEmpty && (c :: t').all fun x => !isWsChar x) = true := by
      simp only [List.isEmpty_cons, Bool.not_false, Bool.true_and, List.all_eq_true]
      intro x hx
      simp [h x hx]
    simp [List.filter_cons, hc]
    exact ⟨h c (by simp), fun x hx => h x (by simp [hx])⟩

theorem nonWsTokens_decomp (t w rest : List Char) (ht : t ≠ [])
    (htn : ∀ c ∈ t, isWsChar c = false) (hw : w ≠ [])
    (hws : ∀ c ∈ w, isWsChar c = true)
    (hrest : rest = [] ∨ ∃ c cs, rest = c :: cs ∧ isWsChar c = false) :
    nonWsTokens (t ++ w ++ rest) = t :: nonWsTokens rest := by
  unfold nonWsTokens
  rw [splitWs_token_append t w rest ht htn hw hws hrest]
  have hct : (!t.isEmpty && t.all fun x => !isWsChar x) = true := by
    cases t with
    | nil => exact absurd rfl ht
    | cons c t' =>
      simp only [List.isEmpty_cons, Bool.not_false, Bool.true_and, List.all_eq_true]
      intro x hx
      simp [htn x hx]
  have hcw : (!w.isEmpty && w.all fun x => !isWsChar x) = false := by
    cases w with
    | nil => exact absurd rfl hw
    | cons d w' =>
      simp only [List.all_cons, hws d (by simp), Bool.not_true, Bool.false_and,
        Bool.and_false]
  simp [List.filter_cons, hct, hcw]

/-- Decomposition of a paragraph with no leading or trailing whitespace:
either it contains no whitespace at all, or it splits off a leading
non-whitespace run and a whitespace run, leaving a strictly shorter remainder
that again has no leading or trailing whitespace. -/
theorem trimmed_decompose (s : List Char)
    (hhead : ∀ c, s.head? = some c → isWsChar c = false)
    (hlast : ∀ c, s.getLast? = some c → isWsChar c = false) :
    (∀ c ∈ s, isWsChar c = false) ∨
    (∃ t w rest, s = t ++ w ++ rest ∧ t ≠ [] ∧ (∀ c ∈ t, isWsChar c = false) ∧
      w ≠ [] ∧ (∀ c ∈ w, isWsChar c = true) ∧
      (∃ c cs, rest = c :: cs ∧ isWsChar c = false) ∧
      (∀ c, rest.getLast? = some c → isWsChar c = false) ∧
      rest.length < s.length) := by
  cases hr1 : s.dropWhile (fun c => !isWsChar c) with
  | nil =>
    left
    intro c hc
    have := List.dropWhile_eq_nil_iff.mp hr1 c hc
    simpa using this
  | cons d r2 =>
    right
    have hd : isWsChar d = true := by
      have := dropWhile_head_not (fun c => !isWsChar c) s d r2 hr1
      simpa using this
    refine ⟨s.takeWhile (fun c => !isWsChar c), (d :: r2).takeWhile isWsChar,
      (d :: r2).dropWhile isWsChar, ?_, ?_, ?_, ?_, ?_, ?_, ?_, ?_⟩
    · rw [List.append_assoc, List.takeWhile_append_dropWhile, ← hr1,
        List.takeWhile_append_dropWhile]
    · intro hteq
      have hs : s = d :: r2 := by
        have := List.takeWhile_append_dropWhile (p := fun c => !isWsChar c) (l := s)
        rw [hteq, hr1] at this
        simpa using this.symm
      have := hhead d (by rw [hs]; rfl)
      rw [hd] at this
      exact Bool.noConfusion this
    · intro c hc
      have := List.mem_takeWhile_imp hc
      simpa using this
    · rw [List.takeWhile_cons, if_pos hd]
      simp
    · intro c hc
      exact List.mem_takeWhile_imp hc
    · cases hrest : (d :: r2).dropWhile isWsChar with
      | nil =>
        exfalso
        have hsplit : s = s.takeWhile (fun c => !isWsChar c) ++ (d :: r2).takeWhile isWsChar := by
          conv_lhs => rw [← List.takeWhile_append_dropWhile (p := fun c => !isWsChar c) (l := s)]
          rw [hr1]
          conv_lhs => rw [← List.takeWhile_append_dropWhile (p := isWsChar) (l := d :: r2)]
          rw [hrest]
          simp
        have hwne : (d :: r2).takeWhile isWsChar ≠ [] := by
          rw [List.takeWhile_cons, if_pos hd]
          simp
        have hlw : s.getLast? = ((d :: r2).takeWhile isWsChar).getLast? := by
          rw [hsplit, List.getLast?_append_of_ne_nil _ hwne]
        obtain ⟨c, hc⟩ := Option.isSome_iff_exists.mp (List.getLast?_isSome.mpr hwne)
        have hcs : s.getLast? = some c := by rw [hlw, hc]
        have hcmem := List.mem_of_getLast?_eq_some hc
        have hcw := List.mem_takeWhile_imp hcmem
        have := hlast c hcs
        rw [hcw] at this
        exact Bool.noConfusion this
      | cons e r3 =>
        have he : isWsChar e = false := by
          have := dropWhile_head_not isWsChar (d :: r2) e r3 hrest
          exact this
        exact ⟨e, r3, rfl, he⟩
    · intro c hc
      apply hlast
      have hsplit : s = (s.takeWhile (fun c => !isWsChar c) ++ (d :: r2).takeWhile isWsChar) ++
          (d :: r2).dropWhile isWsChar := by
        rw [List.append_assoc, List.takeWhile_append_dropWhile, ← hr1,
          List.takeWhile_append_dropWhile]
      have hne : (d :: r2).dropWhile isWsChar ≠ [] := by
        intro hnil
        rw [hnil] at hc
        exact Option.noConfusion hc
      rw [hsplit, List.getLast?_append_of_ne_nil _ hne]
      exact hc
    · have h1 : s.length = (s.takeWhile (fun c => !isWsChar c)).length + (d :: r2).length := by
        conv_lhs => rw [← List.takeWhile_append_dropWhile (p := fun c => !isWsChar c) (l := s)]
        rw [hr1, List.length_append]
      have h2 : (d :: r2).length = ((d :: r2).takeWhile isWsChar).length +
          ((d :: r2).dropWhile isWsChar).length := by
        conv_lhs => rw [← List.takeWhile_append_dropWhile (p := isWsChar) (l := d :: r2)]
        rw [List.length_append]
      have h3 : 0 < ((d :: r2).takeWhile isWsChar).length := by
        rw [List.takeWhile_cons, if_pos hd]
        simp
      omega

/-- A non-empty paragraph with no leading/trailing whitespace has at least one
non-whitespace token. -/
theorem nonWsTokens_ne_nil (s : List Char) (hne : s ≠ [])
    (hhead : ∀ c, s.head? = some c → isWsChar c = false)
    (hlast : ∀ c, s.getLast? = some c → isWsChar c = false) :
    nonWsTokens s ≠ [] := by
  rcases trimmed_decompose s hhead hlast with h | ⟨t, w, rest, hs, ht, htn, hw, hws, hrh, _, _⟩
  · rw [nonWsTokens_of_nonws s h, if_neg hne]
    simp
  · rw [hs, nonWsTokens_decomp t w rest ht htn hw hws (Or.inr hrh)]
    simp

/-- Two paragraphs with no leading/trailing whitespace and identical
non-whitespace token sequences have pointwise comparator-equal
whitespace-split token lists. -/
theorem forall₂_eqTok_of_spacing :
    ∀ (N : Nat) (o n : List Char), o.length + n.length ≤ N →
      (∀ c, o.head? = some c → isWsChar c = false) →
      (∀ c, o.getLast? = some c → isWsChar c = false) →
      (∀ c, n.head? = some c → isWsChar c = false) →
      (∀ c, n.getLast? = some c → isWsChar c = false) →
      nonWsTokens o = nonWsTokens n →
      List.Forall₂ (fun a b => eqTok a b = true) (splitWs n) (splitWs o) := by
  intro N
  induction N with
  | zero =>
    intro o n hlen _ _ _ _ _
    have ho : o = [] := by
      cases o with
      | nil => rfl
      | cons a as => simp at hlen
    have hn : n = [] := by
      cases n with
      | nil => rfl
      | cons a as => simp at hlen
    subst ho hn
    exact List.Forall₂.cons (eqTok_refl []) List.Forall₂.nil
  | succ N ih =>
    intro o n hlen hoh hol hnh hnl htok
    rcases trimmed_decompose o hoh hol with hoA |
      ⟨ta, wa, ra, hso, hto, htno, hwo, hwso, hrho, hrlo, hrlen_o⟩
    · rcases trimmed_decompose n hnh hnl with hnA |
        ⟨tb, wb, rb, hsn, htn, htnn, hwn, hwsn, hrhn, hrln, hrlen_n⟩
      · -- both whitespace-free
        rw [nonWsTokens_of_nonws o hoA, nonWsTokens_of_nonws n hnA] at htok
        by_cases ho : o = []
        · subst ho
          rw [if_pos rfl] at htok
          by_cases hn : n = []
          · subst hn
            exact List.Forall₂.cons (eqTok_refl []) List.Forall₂.nil
          · rw [if_neg hn] at htok
            exact absurd htok.symm (by simp)
        · rw [if_neg ho] at htok
          by_cases hn : n = []
          · subst hn
            rw [if_pos rfl] at htok
            exact absurd htok (by simp)
          · rw [if_neg hn] at htok
            have : o = n := by
              have := List.cons.injEq o [] n [] ▸ htok
              simpa using htok
            subst this
            exact List.forall₂_same.mpr (fun a _ => eqTok_refl a)
      · -- o whitespace-free, n composite: token counts differ
        exfalso
        rw [nonWsTokens_of_nonws o hoA, hsn,
          nonWsTokens_decomp tb wb rb htn htnn hwn hwsn (Or.inr hrhn)] at htok
        obtain ⟨c, cs, hrn, hcw⟩ := hrhn
        have hrne : nonWsTokens rb ≠ [] := by
          apply nonWsTokens_ne_nil rb (by rw [hrn]; simp)
          · intro x hx
            rw [hrn] at hx
            cases hx
            exact hcw
          · exact hrln
        by_cases ho : o = []
        · rw [if_pos ho] at htok
          exact List.noConfusion htok
        · rw [if_neg ho] at htok
          have := congrArg List.length htok
          simp at this
          exact hrne this
    · rcases trimmed_decompose n hnh hnl with hnA |
        ⟨tb, wb, rb, hsn, htn, htnn, hwn, hwsn, hrhn, hrln, hrlen_n⟩
      · -- n whitespace-free, o composite: token counts differ
        exfalso
        rw [nonWsTokens_of_nonws n hnA, hso,
          nonWsTokens_decomp ta wa ra hto htno hwo hwso (Or.inr hrho)] at htok
        obtain ⟨c, cs, hro, hcw⟩ := hrho
        have hrne : nonWsTokens ra ≠ [] := by
          apply nonWsTokens_ne_nil ra (by rw [hro]; simp)
          · intro x hx
            rw [hro] at hx
            cases hx
            exact hcw
          · exact hrlo
        by_cases hn : n = []
        · rw [if_pos hn] at htok
          exact List.noConfusion htok
        · rw [if_neg hn] at htok
          have := congrArg List.length htok
          simp at this
          exact hrne this
      · -- both composite
        rw [hso, nonWsTokens_decomp ta wa ra hto htno hwo hwso (Or.inr hrho),
          hsn, nonWsTokens_decomp tb wb rb htn htnn hwn hwsn (Or.inr hrhn)] at htok
        have hteq : ta = tb := (List.cons.injEq _ _ _ _ ▸ htok).1
        have hrtok : nonWsTokens ra = nonWsTokens rb := (List.cons.injEq _ _ _ _ ▸ htok).2
        have hlens : ra.length + rb.length ≤ N := by
          have h1 : o.length = ta.length + wa.length + ra.length := by
            rw [hso]
            simp [List.length_append]
            omega
          have h2 : n.length = tb.length + wb.length + rb.length := by
            rw [hsn]
            simp [List.length_append]
            omega
          have h3 : 0 < ta.length := List.length_pos.mpr hto
          have h4 : 0 < wa.length := List.length_pos.mpr hwo
          have h5 : 0 < tb.length := List.length_pos.mpr htn
          have h6 : 0 < wb.length := List.length_pos.mpr hwn
          omega
        have hroh : ∀ c, ra.head? = some c → isWsChar c = false := by
          obtain ⟨c, cs, hro, hcw⟩ := hrho
          intro x hx
          rw [hro] at hx
          cases hx
          exact hcw
        have hrnh : ∀ c, rb.head? = some c → isWsChar c = false := by
          obtain ⟨c, cs, hrn, hcw⟩ := hrhn
          intro x hx
          rw [hrn] at hx
          cases hx
          exact hcw
        have hrec := ih ra rb hlens hroh hrlo hrnh hrln hrtok
        rw [hso, splitWs_token_append ta wa ra hto htno hwo hwso (Or.inr hrho),
          hsn, splitWs_token_append tb wb rb htn htnn hwn hwsn (Or.inr hrhn)]
        refine List.Forall₂.cons ?_ (List.Forall₂.cons ?_ hrec)
        · rw [hteq]
          exact eqTok_refl tb
        · unfold eqTok
          rw [normalizeWord_allWs hwsn, normalizeWord_allWs hwso]
          simp

theorem noWsEdge_head {s : List Char} (h : noWsEdge s = true) :
    ∀ c, s.head? = some c → isWsChar c = false := by
  intro c hc
  unfold noWsEdge at h
  rw [hc] at h
  simp only [Bool.and_eq_true] at h
  simpa using h.1

theorem noWsEdge_last {s : List Char} (h : noWsEdge s = true) :
    ∀ c, s.getLast? = some c → isWsChar c = false := by
  intro c hc
  unfold noWsEdge at h
  rw [hc] at h
  simp only [Bool.and_eq_true] at h
  simpa using h.2

/-- Counterexample to C7 as stated: `". a"` and `" . a"` differ only in
spacing (identical sequences of non-whitespace tokens), yet `diffParagraphs`
reports a marked change: the Myers diff greedily matches the leading empty
token of `" . a"` against the `"."` token of `". a"` (both normalize to the
empty word), and is then forced to emit the `". "` run as a marked
insertion. -/
theorem c7_whitespace_invisible_cex :
    nonWsTokens ". a".toList = nonWsTokens " . a".toList ∧
      (diffParagraphs ". a".toList " . a".toList).hasChanges = true :=
  ⟨by decide, by decide⟩

/-- **C7 (amended)** Whitespace-only edits between paragraphs with no leading
or trailing whitespace (as all paragraphs with non-whitespace content
produced by `splitIntoParagraphs` are) are invisible: the diff is a single
unchanged run, `hasChanges` is false, and the rendered output is the escaped
new paragraph with no markers; in the rendering loop, whitespace-only added
runs are copied through unmarked and whitespace-only removed runs are
dropped. -/
theorem c7_whitespace_invisible (oldP newP : List Char)
    (ho : noWsEdge oldP = true) (hn : noWsEdge newP = true)
    (htok : nonWsTokens oldP = nonWsTokens newP) :
    (diffParagraphs oldP newP).hasChanges = false ∧
    diffChanges oldP newP = [⟨splitWs newP, DTag.common⟩] ∧
    (diffParagraphs oldP newP).html = escapeHtml newP ∧
    (∀ (st : RenderSt) (p : DPart), p.tag = DTag.added →
      trimStr p.value.flatten = [] →
      renderStep st p = { st with html := st.html ++ p.value.flatten }) ∧
    (∀ (st : RenderSt) (p : DPart), p.tag = DTag.removed →
      trimStr p.value.flatten = [] → renderStep st p = st) := by
  have hf := forall₂_eqTok_of_spacing (oldP.length + newP.length) oldP newP
    (le_refl _) (noWsEdge_head ho) (noWsEdge_last ho) (noWsEdge_head hn)
    (noWsEdge_last hn) htok
  have hda : diffChanges oldP newP = [⟨splitWs newP, DTag.common⟩] := by
    unfold diffChanges
    exact diffArraysModel_pointwise hf
  refine ⟨(diffParagraphs_pointwise hf).1, hda, ?_, ?_, ?_⟩
  · unfold diffParagraphs diffChanges
    unfold diffChanges at hda
    rw [hda, renderParts_common_single]
    simp [splitWs_flatten]
  · intro st p htag htr
    simp only [renderStep, htag]
    rw [if_neg (by simpa using htr)]
  · intro st p htag htr
    simp only [renderStep, htag]
    rw [if_neg (by simpa using htr)]

/-- Witness for the amended C7 at `("a b", "a  b")`: only internal spacing
differs, and no change is reported. -/
theorem c7_whitespace_invisible_witness :
    (diffParagraphs "a b".toList "a  b".toList).hasChanges = false ∧
      (diffParagraphs "a b".toList "a  b".toList).html = escapeHtml "a  b".toList :=
  ⟨(c7_whitespace_invisible "a b".toList "a  b".toList (by decide) (by decide)
      (by decide)).1,
    (c7_whitespace_invisible "a b".toList "a  b".toList (by decide) (by decide)
      (by decide)).2.2.1⟩

/-- Counterexample to C10 as stated: the token `"K"` (KELVIN SIGN)
consists only of non-word characters, but JS lowercases it to the word
character `k` before the `[^\w]` strip, so it normalizes to `"k"`, not `""`;
it therefore compares unequal to the em-dash token, and replacing the
standalone `"—"` of `"a — b"` with it produces marked changes rather than a
single unchanged run. -/
theorem c10_punct_comparator_cex :
    (∀ c ∈ [ 'K' ], isWordChar c = false) ∧
    normalizeWord [ 'K' ] ≠ [] ∧
    eqTok [ 'K' ] "—".toList = false ∧
    (diffParagraphs "a — b".toList "a K b".toList).hasChanges = true := by
  exact ⟨by decide, by decide, by decide, by decide⟩

/-- **C10 (amended)** The diff comparator maps every token whose
JS-lowercased form contains no word characters to the empty string, so two
such tokens compare equal; replacing one standalone punctuation token by
another therefore yields a single unchanged run: no insertion or deletion
marker, and the token's characters count toward `unchangedChars` (which
equals the full non-whitespace character count of the new paragraph).  (As
originally stated — for every token of non-word characters — the claim fails
on the token U+212A, whose lowercase form is the word character `k`: see the
counterexample.) -/
theorem c10_punct_comparator (oldP newP t1 t2 : List Char)
    (A B : List (List Char))
    (h1 : ∀ c ∈ t1, ∀ d ∈ toLowerJS c, isWordChar d = false)
    (h2 : ∀ c ∈ t2, ∀ d ∈ toLowerJS c, isWordChar d = false)
    (ho : splitWs oldP = A ++ t1 :: B) (hn : splitWs newP = A ++ t2 :: B) :
    normalizeWord t1 = [] ∧ normalizeWord t2 = [] ∧ eqTok t1 t2 = true ∧
    diffChanges oldP newP = [⟨splitWs newP, DTag.common⟩] ∧
    (diffParagraphs oldP newP).hasChanges = false ∧
    (renderParts (diffChanges oldP newP)).unchanged = nonWsLen newP ∧
    (renderParts (diffChanges oldP newP)).total = nonWsLen newP := by
  have hn1 := normalizeWord_allNonWordLow h1
  have hn2 := normalizeWord_allNonWordLow h2
  have heq : eqTok t1 t2 = true := by
    unfold eqTok
    rw [hn1, hn2]
    simp
  have hf : List.Forall₂ (fun a b => eqTok a b = true) (splitWs newP) (splitWs oldP) := by
    rw [ho, hn]
    refine List.rel_append (List.forall₂_same.mpr fun a _ => eqTok_refl a) ?_
    refine List.Forall₂.cons ?_ (List.forall₂_same.mpr fun a _ => eqTok_refl a)
    unfold eqTok
    rw [hn1, hn2]
    simp
  have hda : diffChanges oldP newP = [⟨splitWs newP, DTag.common⟩] := by
    unfold diffChanges
    exact diffArraysModel_pointwise hf
  refine ⟨hn1, hn2, heq, hda, (diffParagraphs_pointwise hf).1, ?_, ?_⟩ <;>
  · rw [hda, renderParts_common_single]
    simp [splitWs_flatten]

/-- Witness for the amended C10 at `("a — b", "a ! b")`: the em-dash and the
exclamation mark lowercase to themselves with no word characters, so the
replacement produces a single unchanged run. -/
theorem c10_punct_comparator_witness :
    (diffParagraphs "a — b".toList "a ! b".toList).hasChanges = false ∧
      (renderParts (diffChanges "a — b".toList "a ! b".toList)).unchanged =
        nonWsLen "a ! b".toList := by
  have h := c10_punct_comparator "a — b".toList "a ! b".toList "—".toList "!".toList
    [['a'], [' ']] [[' '], ['b']] (by decide) (by decide) (by decide) (by decide)
  exact ⟨h.2.2.2.2.1, h.2.2.2.2.2.1⟩

theorem filterMap_if_eq_map_filter {α β : Type} (p : α → Prop) [DecidablePred p]
    (f : α → β) :
    ∀ l : List α, (l.filterMap (fun a => if p a then some (f a) else none)) =
      (l.filter (fun a => decide (p a))).map f := by
  intro l
  induction l with
  | nil => simp
  | cons a l ih =>
    by_cases hp : p a
    · simp [List.filterMap_cons, List.filter_cons, hp, ih]
    · simp [List.filterMap_cons, List.filter_cons, hp, ih]

theorem removedEntries_eq_map_filter (ps : List (List Char)) (used : Finset Nat) :
    removedEntries ps used =
      ((List.range ps.length).filter (fun i => decide (i ∉ used))).map
        (fun i => Entry.removed (escapeHtml (ps.getD i []))) := by
  unfold removedEntries
  exact filterMap_if_eq_map_filter _ _ _

theorem pairEntries_shape (o n : List Char) :
    pairEntries o n = [] ∨
      ∃ e, pairEntries o n = [e] ∧ ∀ c, e ≠ Entry.removed c := by
  unfold pairEntries
  by_cases h1 : (diffParagraphs o n).hasChanges = true
  · rw [if_pos h1]
    by_cases h2 : (diffParagraphs o n).type = PairType.replaced
    · rw [if_pos h2]
      exact Or.inr ⟨_, rfl, fun c => by simp⟩
    · rw [if_neg h2]
      exact Or.inr ⟨_, rfl, fun c => by simp⟩
  · rw [if_neg h1]
    exact Or.inl rfl

theorem fbm_nonneg_spec (para : List Char) (ps : List (List Char)) (used : Finset Nat)
    (h : 0 ≤ (findBestMatch para ps used).index) :
    (findBestMatch para ps used).index.toNat < ps.length ∧
      (findBestMatch para ps used).index.toNat ∉ used := by
  rcases fbm_cases para ps used with ⟨h1, _, _⟩ | ⟨j, hj, h1, _, h3, _, _, _⟩
  · rw [h1] at h
    exact absurd h (by norm_num)
  · rw [h1]
    rw [Int.toNat_natCast]
    exact ⟨hj, h3⟩

theorem gdMatches_spec (oldPs : List (List Char)) :
    ∀ (l : List (List Char)) (i : Nat) (used : Finset Nat),
      ((gdGo oldPs l used).2 =
        used ∪ ((gdMatches oldPs l i used).map Prod.snd).toFinset) ∧
      (∀ pr ∈ gdMatches oldPs l i used,
        i ≤ pr.1 ∧ pr.1 < i + l.length ∧ pr.2 < oldPs.length ∧ pr.2 ∉ used) ∧
      List.Pairwise (· < ·) ((gdMatches oldPs l i used).map Prod.fst) ∧
      ((gdMatches oldPs l i used).map Prod.snd).Nodup := by
  intro l
  induction l with
  | nil =>
    intro i used
    exact ⟨by simp [gdGo, gdMatches], by simp [gdMatches], by simp [gdMatches],
      by simp [gdMatches]⟩
  | cons p rest ih =>
    intro i used
    by_cases hm : 0 ≤ (findBestMatch p oldPs used).index
    · have hgd : (gdGo oldPs (p :: rest) used).2 =
          (gdGo oldPs rest (insert (findBestMatch p oldPs used).index.toNat used)).2 := by
        simp only [gdGo]
        rw [if_pos hm]
      have hgm : gdMatches oldPs (p :: rest) i used =
          (i, (findBestMatch p oldPs used).index.toNat) ::
            gdMatches oldPs rest (i + 1)
              (insert (findBestMatch p oldPs used).index.toNat used) := by
        simp only [gdMatches]
        rw [if_pos hm]
      obtain ⟨ih1, ih2, ih3, ih4⟩ :=
        ih (i + 1) (insert (findBestMatch p oldPs used).index.toNat used)
      have hsp := fbm_nonneg_spec p oldPs used hm
      refine ⟨?_, ?_, ?_, ?_⟩
      · rw [hgd, hgm, ih1]
        ext x
        simp only [Finset.mem_union, Finset.mem_insert, List.map_cons,
          List.toFinset_cons, List.mem_toFinset]
        tauto
      · rw [hgm]
        intro pr hpr
        rcases List.mem_cons.mp hpr with hh | ht
        · subst hh
          exact ⟨le_refl i, by simp, hsp.1, hsp.2⟩
        · obtain ⟨g1, g2, g3, g4⟩ := ih2 pr ht
          refine ⟨by omega, by simp only [List.length_cons]; omega, g3, ?_⟩
          intro hc
          exact g4 (Finset.mem_insert_of_mem hc)
      · rw [hgm]
        simp only [List.map_cons, List.pairwise_cons]
        refine ⟨?_, ih3⟩
        intro b hb
        obtain ⟨pr, hpr, hpb⟩ := List.mem_map.mp hb
        have := (ih2 pr hpr).1
        omega
      · rw [hgm]
        simp only [List.map_cons, List.nodup_cons]
        refine ⟨?_, ih4⟩
        intro hc
        obtain ⟨pr, hpr, hpb⟩ := List.mem_map.mp hc
        have := (ih2 pr hpr).2.2.2
        rw [hpb] at this
        exact this (Finset.mem_insert_self _ _)
    · have hgd : (gdGo oldPs (p :: rest) used).2 = (gdGo oldPs rest used).2 := by
        simp only [gdGo]
        rw [if_neg hm]
      have hgm : gdMatches oldPs (p :: rest) i used =
          gdMatches oldPs rest (i + 1) used := by
        simp only [gdMatches]
        rw [if_neg hm]
      obtain ⟨ih1, ih2, ih3, ih4⟩ := ih (i + 1) used
      refine ⟨by rw [hgd, hgm]; exact ih1, ?_, by rw [hgm]; exact ih3,
        by rw [hgm]; exact ih4⟩
      rw [hgm]
      intro pr hpr
      obtain ⟨g1, g2, g3, g4⟩ := ih2 pr hpr
      exact ⟨by omega, by simp only [List.length_cons]; omega, g3, g4⟩

/-- Per-new-paragraph decomposition of the matching loop's entry output: the
`k`-th contribution is exactly the entry list generated by the `k`-th
remaining new paragraph — `pairEntries` against its matched old paragraph
when the loop matched it (at the pair recorded by `gdMatches`), and a single
`added` entry otherwise; never more than one entry, never a `removed`
entry. -/
theorem gdGo_perNew (oldPs : List (List Char)) :
    ∀ (l : List (List Char)) (i : Nat) (used : Finset Nat),
      ∃ perNew : List (List Entry),
        perNew.length = l.length ∧
        (∀ k, k < l.length →
          (∃ j, (i + k, j) ∈ gdMatches oldPs l i used ∧
              perNew.getD k [] = pairEntries (oldPs.getD j []) (l.getD k [])) ∨
          ((∀ j, (i + k, j) ∉ gdMatches oldPs l i used) ∧
              perNew.getD k [] = [Entry.added (escapeHtml (l.getD k []))])) ∧
        (∀ en ∈ perNew, en.length ≤ 1 ∧ ∀ e ∈ en, ∀ c, e ≠ Entry.removed c) ∧
        (gdGo oldPs l used).1 = perNew.flatten := by
  intro l
  induction l with
  | nil =>
    intro i used
    exact ⟨[], rfl, by intro k hk; exact absurd hk (Nat.not_lt_zero k), by simp,
      by simp [gdGo]⟩
  | cons p rest ih =>
    intro i used
    by_cases hm : 0 ≤ (findBestMatch p oldPs used).index
    · have hgm : gdMatches oldPs (p :: rest) i used =
          (i, (findBestMatch p oldPs used).index.toNat) ::
            gdMatches oldPs rest (i + 1)
              (insert (findBestMatch p oldPs used).index.toNat used) := by
        simp only [gdMatches]
        rw [if_pos hm]
      obtain ⟨perNew, hlen, hsel, hshape, hflat⟩ :=
        ih (i + 1) (insert (findBestMatch p oldPs used).index.toNat used)
      refine ⟨pairEntries (oldPs.getD (findBestMatch p oldPs used).index.toNat []) p ::
        perNew, by simp [hlen], ?_, ?_, ?_⟩
      · intro k hk
        cases k with
        | zero =>
          left
          refine ⟨(findBestMatch p oldPs used).index.toNat, ?_, rfl⟩
          rw [hgm]
          simp
        | succ n =>
          have hk' : n < rest.length := by
            simp only [List.length_cons] at hk
            omega
          have harith : i + (n + 1) = (i + 1) + n := by omega
          rcases hsel n hk' with ⟨j, hjm, hje⟩ | ⟨hnm, hje⟩
          · left
            refine ⟨j, ?_, by simpa using hje⟩
            rw [hgm, harith]
            exact List.mem_cons_of_mem _ hjm
          · right
            refine ⟨?_, by simpa using hje⟩
            intro j hj
            rw [hgm] at hj
            rcases List.mem_cons.mp hj with hh | ht
            · injection hh with hh1 hh2
              omega
            · rw [harith] at ht
              exact hnm j ht
      · intro en hen
        rcases List.mem_cons.mp hen with hh | ht
        · subst hh
          rcases pairEntries_shape (oldPs.getD (findBestMatch p oldPs used).index.toNat []) p
            with hh | ⟨e, he, hne⟩
          · rw [hh]
            simp
          · rw [he]
            refine ⟨by simp, ?_⟩
            intro x hx c
            rw [List.mem_singleton.mp hx]
            exact hne c
        · exact hshape en ht
      · show (gdGo oldPs (p :: rest) used).1 = _
        simp only [gdGo]
        rw [if_pos hm]
        simp only [List.flatten_cons]
        rw [hflat]
    · have hgm : gdMatches oldPs (p :: rest) i used =
          gdMatches oldPs rest (i + 1) used := by
        simp only [gdMatches]
        rw [if_neg hm]
      obtain ⟨perNew, hlen, hsel, hshape, hflat⟩ := ih (i + 1) used
      refine ⟨[Entry.added (escapeHtml p)] :: perNew, by simp [hlen], ?_, ?_, ?_⟩
      · intro k hk
        cases k with
        | zero =>
          right
          refine ⟨?_, rfl⟩
          intro j hj
          rw [hgm] at hj
          have hge : i + 1 ≤ i + 0 :=
            ((gdMatches_spec oldPs rest (i + 1) used).2.1 _ hj).1
          omega
        | succ n =>
          have hk' : n < rest.length := by
            simp only [List.length_cons] at hk
            omega
          have harith : i + (n + 1) = (i + 1) + n := by omega
          rcases hsel n hk' with ⟨j, hjm, hje⟩ | ⟨hnm, hje⟩
          · left
            refine ⟨j, ?_, by simpa using hje⟩
            rw [hgm, harith]
            exact hjm
          · right
            refine ⟨?_, by simpa using hje⟩
            intro j hj
            rw [hgm, harith] at hj
            exact hnm j hj
      · intro en hen
        rcases List.mem_cons.mp hen with hh | ht
        · subst hh
          refine ⟨by simp, ?_⟩
          intro e he c
          rw [List.mem_singleton.mp he]
          simp
        · exact hshape en ht
      · show (gdGo oldPs (p :: rest) used).1 = _
        simp only [gdGo]
        rw [if_neg hm]
        simp only [List.flatten_cons, List.singleton_append]
        rw [hflat]

/-- **C6** Output ordering: `generateDiff` lists the changed/replaced/added
entries in new-paragraph order — the `k`-th contribution is exactly the entry
generated by the `k`-th new paragraph: `pairEntries` against its matched old
paragraph (at the pair recorded by the matching loop's pair list `gdMatches`)
when matched, a single `added` entry otherwise, never a `removed` entry —
followed by all `removed` entries, which are exactly the unmatched
old-paragraph indices in increasing index order, with no other
interleaving. -/
theorem c6_output_ordering (oldC newC : List Char) :
    ∃ (perNew : List (List Entry)) (remIdx : List Nat),
      perNew.length = (splitIntoParagraphs newC).length ∧
      (∀ k, k < perNew.length →
        (∃ j, (k, j) ∈ gdMatches (splitIntoParagraphs oldC)
              (splitIntoParagraphs newC) 0 ∅ ∧
            perNew.getD k [] =
              pairEntries ((splitIntoParagraphs oldC).getD j [])
                ((splitIntoParagraphs newC).getD k [])) ∨
        ((∀ j, (k, j) ∉ gdMatches (splitIntoParagraphs oldC)
              (splitIntoParagraphs newC) 0 ∅) ∧
            perNew.getD k [] =
              [Entry.added (escapeHtml ((splitIntoParagraphs newC).getD k []))])) ∧
      (∀ l ∈ perNew, l.length ≤ 1) ∧
      (∀ l ∈ perNew, ∀ e ∈ l, ∀ c, e ≠ Entry.removed c) ∧
      remIdx = (List.range (splitIntoParagraphs oldC).length).filter
        (fun i => decide (i ∉ ((gdMatches (splitIntoParagraphs oldC)
          (splitIntoParagraphs newC) 0 ∅).map Prod.snd).toFinset)) ∧
      List.Pairwise (· < ·) remIdx ∧
      (∀ i ∈ remIdx, i < (splitIntoParagraphs oldC).length) ∧
      generateDiff oldC newC =
        perNew.flatten ++ remIdx.map (fun i =>
          Entry.removed (escapeHtml ((splitIntoParagraphs oldC).getD i []))) := by
  obtain ⟨perNew, hlen, hsel, hshape, hflat⟩ :=
    gdGo_perNew (splitIntoParagraphs oldC) (splitIntoParagraphs newC) 0 ∅
  have hused : (gdGo (splitIntoParagraphs oldC) (splitIntoParagraphs newC) ∅).2 =
      ((gdMatches (splitIntoParagraphs oldC) (splitIntoParagraphs newC) 0 ∅).map
        Prod.snd).toFinset := by
    rw [(gdMatches_spec (splitIntoParagraphs oldC) (splitIntoParagraphs newC) 0 ∅).1]
    simp
  refine ⟨perNew, _, hlen, ?_, fun l hl => (hshape l hl).1,
    fun l hl => (hshape l hl).2, rfl, ?_, ?_, ?_⟩
  · intro k hk
    rw [hlen] at hk
    rcases hsel k hk with ⟨j, hjm, hje⟩ | ⟨hnm, hje⟩
    · left
      exact ⟨j, by simpa using hjm, hje⟩
    · right
      exact ⟨fun j hj => hnm j (by simpa using hj), hje⟩
  · exact (List.pairwise_lt_range _).filter _
  · intro i hi
    exact List.mem_range.mp (List.mem_filter.mp hi).1
  · unfold generateDiff
    show (gdGo (splitIntoParagraphs oldC) (splitIntoParagraphs newC) ∅).1 ++
        removedEntries (splitIntoParagraphs oldC)
          (gdGo (splitIntoParagraphs oldC) (splitIntoParagraphs newC) ∅).2 = _
    rw [hflat, hused, removedEntries_eq_map_filter]

/-- **C8** One-to-one matching: the alignment loop of `generateDiff` matches
each new paragraph at most once (strictly increasing new positions), consumes
each old index in at most one pair (`Nodup`, and each pair's old index was
unused at selection time), and the removed entries are exactly the
old-paragraph indices never selected by any match, in index order. -/
theorem c8_one_to_one (oldC newC : List Char) :
    ∃ pairs : List (Nat × Nat),
      pairs = gdMatches (splitIntoParagraphs oldC) (splitIntoParagraphs newC) 0 ∅ ∧
      List.Pairwise (· < ·) (pairs.map Prod.fst) ∧
      (pairs.map Prod.snd).Nodup ∧
      (∀ pr ∈ pairs, pr.1 < (splitIntoParagraphs newC).length ∧
        pr.2 < (splitIntoParagraphs oldC).length) ∧
      (gdGo (splitIntoParagraphs oldC) (splitIntoParagraphs newC) ∅).2 =
        (pairs.map Prod.snd).toFinset ∧
      removedEntries (splitIntoParagraphs oldC)
          (gdGo (splitIntoParagraphs oldC) (splitIntoParagraphs newC) ∅).2 =
        ((List.range (splitIntoParagraphs oldC).length).filter
            (fun i => decide (i ∉ (pairs.map Prod.snd).toFinset))).map
          (fun i => Entry.removed (escapeHtml ((splitIntoParagraphs oldC).getD i []))) := by
  obtain ⟨h1, h2, h3, h4⟩ :=
    gdMatches_spec (splitIntoParagraphs oldC) (splitIntoParagraphs newC) 0 ∅
  have hused : (gdGo (splitIntoParagraphs oldC) (splitIntoParagraphs newC) ∅).2 =
      ((gdMatches (splitIntoParagraphs oldC) (splitIntoParagraphs newC) 0 ∅).map
        Prod.snd).toFinset := by
    rw [h1]
    simp
  refine ⟨gdMatches (splitIntoParagraphs oldC) (splitIntoParagraphs newC) 0 ∅,
    rfl, h3, h4, ?_, hused, ?_⟩
  · intro pr hpr
    obtain ⟨g1, g2, g3, _⟩ := h2 pr hpr
    exact ⟨by omega, g3⟩
  · rw [hused, removedEntries_eq_map_filter]

theorem lookBoundary_not_ws {cur : List Char} {c : Char} {cs : List Char}
    (h : isWsChar c = false) : lookBoundary cur c cs = false := by
  simp [lookBoundary, h]

/-- Skip mode discards the whitespace run and then behaves like a fresh scan
of the remainder. -/
theorem ssAux_skip : ∀ (cs cur : List Char),
    ssAux true cur cs = ssAux false cur (cs.dropWhile isWsChar) := by
  intro cs
  induction cs with
  | nil => intro cur; simp [ssAux, List.dropWhile]
  | cons c cs' ih =>
    intro cur
    by_cases hc : isWsChar c = true
    · simp only [ssAux]
      rw [if_pos hc, ih cur, List.dropWhile_cons_of_pos hc]
    · have hc' : isWsChar c = false := by simpa using hc
      simp only [ssAux]
      rw [if_neg (by simp [hc']), List.dropWhile_cons_of_neg (by simp [hc'])]
      simp only [ssAux]
      rw [if_neg (by simp [lookBoundary_not_ws hc'])]

/-- The scan of `cs` with accumulated sentence `cur` either never fires and
returns one sentence with no internal boundary, or fires a first boundary:
the sentence so far ends in a terminal character, the separator is a
non-empty whitespace run followed by an upper-case letter, the scan restarts
on the remainder, and no boundary fired inside the emitted sentence. -/
theorem ssAux_scan : ∀ (cs cur : List Char),
    (∀ u c0 v, cur = u ++ c0 :: v → lookBoundary u c0 (v ++ cs) = false) →
    ((ssAux false cur cs = [cur ++ cs] ∧
        (∀ u c0 v, cur ++ cs = u ++ c0 :: v → lookBoundary u c0 v = false)) ∨
      (∃ u w rest, cs = u ++ w ++ rest ∧
        (∃ p, (cur ++ u).getLast? = some p ∧ isTermChar p = true) ∧
        w ≠ [] ∧ (∀ x ∈ w, isWsChar x = true) ∧
        (∃ d r2, rest = d :: r2 ∧ isUpperChar d = true) ∧
        ssAux false cur cs = (cur ++ u) :: ssAux false [] rest ∧
        (∀ u0 c0 v, cur ++ u = u0 ++ c0 :: v →
          lookBoundary u0 c0 (v ++ w ++ rest) = false))) := by
  intro cs
  induction cs with
  | nil =>
    intro cur hf
    left
    refine ⟨by simp [ssAux], ?_⟩
    intro u c0 v h
    have := hf u c0 v (by simpa using h)
    simpa using this
  | cons c cs' ih =>
    intro cur hf
    by_cases hb : lookBoundary cur c cs' = true
    · right
      have hbp := hb
      unfold lookBoundary at hbp
      simp only [Bool.and_eq_true] at hbp
      obtain ⟨⟨hterm, hwc⟩, hup⟩ := hbp
      refine ⟨[], c :: cs'.takeWhile isWsChar, cs'.dropWhile isWsChar,
        by simp [List.takeWhile_append_dropWhile], ?_, by simp, ?_, ?_, ?_, ?_⟩
      · cases hg : cur.getLast? with
        | none => rw [hg] at hterm; exact Bool.noConfusion hterm
        | some p =>
          rw [hg] at hterm
          exact ⟨p, by simpa using hg, hterm⟩
      · intro x hx
        rcases List.mem_cons.mp hx with hh | ht
        · subst hh; exact hwc
        · exact List.mem_takeWhile_imp ht
      · cases hd : cs'.dropWhile isWsChar with
        | nil => rw [hd] at hup; exact Bool.noConfusion hup
        | cons d r2 =>
          rw [hd] at hup
          exact ⟨d, r2, rfl, hup⟩
      · simp only [ssAux]
        rw [if_pos hb, ssAux_skip]
        simp
      · intro u0 c0 v h
        have h2 := hf u0 c0 v (by simpa using h)
        have heq : v ++ (c :: cs') =
            v ++ (c :: cs'.takeWhile isWsChar) ++ cs'.dropWhile isWsChar := by
          simp [List.append_assoc, List.takeWhile_append_dropWhile]
        rw [heq] at h2
        exact h2
    · have hbf : lookBoundary cur c cs' = false := by simpa using hb
      have hfacts : ∀ u0 c0 v, cur ++ [c] = u0 ++ c0 :: v →
          lookBoundary u0 c0 (v ++ cs') = false := by
        intro u0 c0 v h
        rcases v.eq_nil_or_concat with hv | ⟨v', cv, hv⟩
        · subst hv
          obtain ⟨h1, h2⟩ := List.append_inj' h (by simp)
          cases h2
          subst h1
          simpa using hbf
        · rw [List.concat_eq_append] at hv
          subst hv
          have h' : cur ++ [c] = (u0 ++ c0 :: v') ++ [cv] := by
            rw [h]
            simp
          obtain ⟨h1, h2⟩ := List.append_inj' h' (by simp)
          cases h2
          have h3 := hf u0 c0 v' h1
          have heq : v' ++ (c :: cs') = (v' ++ [c]) ++ cs' := by simp
          rw [heq] at h3
          exact h3
      rcases ih (cur ++ [c]) hfacts with ⟨heq, hns⟩ |
        ⟨u, w, rest, hcs, hterm, hw, hws, hup, heq, hfacts2⟩
      · left
        constructor
        · simp only [ssAux]
          rw [if_neg (by simp [hbf]), heq]
          simp
        · intro u c0 v h
          apply hns u c0 v
          rw [List.append_assoc]
          simpa using h
      · right
        refine ⟨c :: u, w, rest, by simp [hcs], ?_, hw, hws, hup, ?_, ?_⟩
        · have : cur ++ c :: u = cur ++ [c] ++ u := by simp
          rw [this]
          exact hterm
        · simp only [ssAux]
          rw [if_neg (by simp [hbf]), heq]
          simp
        · intro u0 c0 v h
          apply hfacts2 u0 c0 v
          rw [List.append_assoc]
          simpa using h

theorem sd_aux : ∀ (N : Nat) (text : List Char), text.length ≤ N →
    SD text (splitSentences text) := by
  intro N
  induction N with
  | zero =>
    intro text h
    have htext : text = [] := List.length_eq_zero.mp (Nat.le_zero.mp h)
    subst htext
    have : splitSentences [] = [[]] := by simp [splitSentences, ssAux]
    rw [this]
    exact SD.single [] (fun u c v h => absurd h (by simp))
  | succ N ih =>
    intro text hlen
    rcases ssAux_scan text [] (fun u c0 v h => absurd h (by simp)) with ⟨heq, hns⟩ |
      ⟨u, w, rest, hcs, hterm, hw, hws, hup, heq, hfacts⟩
    · have hsp : splitSentences text = [text] := by
        unfold splitSentences
        simpa using heq
      rw [hsp]
      exact SD.single text (fun u c v h => by simpa using hns u c v (by simpa using h))
    · have hrlen : rest.length ≤ N := by
        have := congrArg List.length hcs
        simp [List.length_append] at this
        have hwl : 0 < w.length := List.length_pos.mpr hw
        omega
      have hsd := ih rest hrlen
      have hsplit : splitSentences text = u :: splitSentences rest := by
        unfold splitSentences
        rw [heq]
        simp
      rw [hsplit, hcs]
      exact SD.step u w rest (splitSentences rest) (by simpa using hterm) hw hws hup
        (fun u0 c0 v h => hfacts u0 c0 v (by simpa using h)) hsd

theorem sd_splitSentences (text : List Char) : SD text (splitSentences text) :=
  sd_aux text.length text (le_refl _)

theorem term_not_ws {p : Char} (h : isTermChar p = true) : isWsChar p = false := by
  unfold isTermChar at h
  unfold isWsChar
  simp only [Bool.or_eq_true, beq_iff_eq] at h
  rcases h with (h | h) | h <;> subst h <;> decide

theorem upper_not_ws {d : Char} (h : isUpperChar d = true) : isWsChar d = false := by
  unfold isUpperChar at h
  unfold isWsChar
  simp only [Bool.and_eq_true, decide_eq_true_eq] at h
  simp only [Bool.or_eq_false_iff, Bool.and_eq_false_iff, decide_eq_false_iff_not,
    not_le, beq_eq_false_iff_ne, ne_eq]
  omega

theorem trim_nil_allWs {s : List Char} (h : trimStr s = []) :
    ∀ x ∈ s, isWsChar x = true := by
  unfold trimStr at h
  have h1 : ((s.dropWhile isWsChar).reverse).dropWhile isWsChar = [] := by
    have := congrArg List.reverse h
    simpa using this
  have h2 := List.dropWhile_eq_nil_iff.mp h1
  have h3 : ∀ x ∈ s.dropWhile isWsChar, isWsChar x = true := by
    intro x hx
    exact h2 x (by simpa using hx)
  intro x hx
  have hx' : x ∈ s.takeWhile isWsChar ++ s.dropWhile isWsChar := by
    rw [List.takeWhile_append_dropWhile]
    exact hx
  rcases List.mem_append.mp hx' with h | h
  · exact List.mem_takeWhile_imp h
  · exact h3 x h

theorem trim_ne_of_member {s : List Char} {c : Char} (hc : c ∈ s)
    (hw : isWsChar c = false) : trimStr s ≠ [] := by
  intro h
  have := trim_nil_allWs h c hc
  rw [hw] at this
  exact Bool.noConfusion this

theorem sd_ne_nil {t : List Char} {ss : List (List Char)} (h : SD t ss) : ss ≠ [] := by
  cases h <;> simp

theorem sd_head {t : List Char} {ss : List (List Char)} (h : SD t ss) :
    ∃ s₀ ss₀, ss = s₀ :: ss₀ ∧ s₀.head? = t.head? := by
  induction h with
  | single s _ => exact ⟨s, [], rfl, rfl⟩
  | step s w rest ss' hterm _ _ _ _ _ _ =>
    refine ⟨s, ss', rfl, ?_⟩
    obtain ⟨p, hp, _⟩ := hterm
    have hs : s ≠ [] := by
      intro hnil
      rw [hnil] at hp
      exact Option.noConfusion hp
    cases s with
    | nil => exact absurd rfl hs
    | cons a as => simp

theorem sd_tail_upper {t : List Char} {ss : List (List Char)} (h : SD t ss) :
    ∀ s ∈ ss.tail, ∃ d r, s = d :: r ∧ isUpperChar d = true := by
  induction h with
  | single s _ => simp
  | step s w rest ss' _ _ _ hup _ hsd ih =>
    intro x hx
    simp only [List.tail_cons] at hx
    obtain ⟨s₀, ss₀, hss, hhead⟩ := sd_head hsd
    rw [hss] at hx
    rcases List.mem_cons.mp hx with hh | ht
    · subst hh
      obtain ⟨d, r2, hrest, hud⟩ := hup
      rw [hrest] at hhead
      cases x with
      | nil => exact absurd hhead (by simp)
      | cons b bs =>
        simp only [List.head?_cons] at hhead
        cases hhead
        exact ⟨d, bs, rfl, hud⟩
    · have := ih
      rw [hss] at this
      exact this x (by simpa using ht)

theorem sd_dropLast_term {t : List Char} {ss : List (List Char)} (h : SD t ss) :
    ∀ s ∈ ss.dropLast, ∃ p, s.getLast? = some p ∧ isTermChar p = true := by
  induction h with
  | single s _ => simp
  | step s w rest ss' hterm _ _ _ _ hsd ih =>
    intro x hx
    have hne : ss' ≠ [] := sd_ne_nil hsd
    cases ss' with
    | nil => exact absurd rfl hne
    | cons b bs =>
      rw [List.dropLast_cons₂] at hx
      rcases List.mem_cons.mp hx with hh | ht
      · subst hh
        exact hterm
      · exact ih x ht

theorem sd_getLast {t : List Char} {ss : List (List Char)} (h : SD t ss) :
    ∃ sl, ss.getLast? = some sl ∧ sl.getLast? = t.getLast? := by
  induction h with
  | single s _ => exact ⟨s, rfl, rfl⟩
  | step s w rest ss' _ _ _ hup _ hsd ih =>
    obtain ⟨sl, hsl, hl⟩ := ih
    refine ⟨sl, ?_, ?_⟩
    · cases ss' with
      | nil => exact absurd rfl (sd_ne_nil hsd)
      | cons b bs =>
        rw [List.getLast?_cons_cons]
        exact hsl
    · rw [hl]
      obtain ⟨d, r2, hrest, _⟩ := hup
      rw [List.append_assoc, List.getLast?_append_of_ne_nil _ (by
        intro hc
        have : rest = [] := by
          rcases List.append_eq_nil.mp hc with ⟨_, h2⟩
          exact h2
        rw [hrest] at this
        exact List.noConfusion this)]
      rw [List.getLast?_append_of_ne_nil _ (by rw [hrest]; simp)]

theorem sd_member_nonws {t : List Char} {ss : List (List Char)} (h : SD t ss)
    (ht : ∃ c ∈ t, isWsChar c = false) :
    ∀ s ∈ ss, ∃ c ∈ s, isWsChar c = false := by
  induction h with
  | single s _ =>
    intro x hx
    rw [List.mem_singleton.mp hx]
    exact ht
  | step s w rest ss' hterm _ _ hup _ hsd ih =>
    intro x hx
    rcases List.mem_cons.mp hx with hh | htl
    · subst hh
      obtain ⟨p, hp, hpt⟩ := hterm
      exact ⟨p, List.mem_of_getLast?_eq_some hp, term_not_ws hpt⟩
    · apply ih _ x htl
      obtain ⟨d, r2, hrest, hud⟩ := hup
      exact ⟨d, by rw [hrest]; simp, upper_not_ws hud⟩

theorem trim_ne_member {s : List Char} (h : trimStr s ≠ []) :
    ∃ c ∈ s, isWsChar c = false := by
  by_contra hc
  push_neg at hc
  apply h
  apply trim_allWs
  intro x hx
  have := hc x hx
  cases hxw : isWsChar x
  · exact absurd hxw this
  · rfl

theorem joinSp_cons_cons (a b : List Char) (r : List (List Char)) :
    joinSp (a :: b :: r) = a ++ ' ' :: joinSp (b :: r) := by
  rfl

theorem joinSp_shift (a b : List Char) (r : List (List Char)) :
    joinSp ((a ++ ' ' :: b) :: r) = a ++ ' ' :: joinSp (b :: r) := by
  cases r with
  | nil => rfl
  | cons x xs =>
    rw [joinSp_cons_cons, joinSp_cons_cons]
    simp

theorem jAcc_joinSp : ∀ (rest : List (List Char)) (s0 : List Char),
    jAcc s0 rest = joinSp (s0 :: rest) := by
  intro rest
  induction rest with
  | nil => intro s0; rfl
  | cons s rest' ih =>
    intro s0
    rw [jAcc, ih, joinSp_shift]
    rfl

theorem joinSp_append_single : ∀ (b : List (List Char)) (s : List Char), b ≠ [] →
    joinSp (b ++ [s]) = joinSp b ++ ' ' :: s := by
  intro b
  induction b with
  | nil => intro s h; exact absurd rfl h
  | cons x b' ih =>
    intro s _
    cases b' with
    | nil => rfl
    | cons y b'' =>
      have := ih s (by simp)
      simp only [List.cons_append] at this ⊢
      rw [joinSp_cons_cons, this, joinSp_cons_cons]
      simp

theorem mem_joinSp {x : Char} {s : List Char} {b : List (List Char)}
    (hx : x ∈ s) (hs : s ∈ b) : x ∈ joinSp b := by
  induction b with
  | nil => exact absurd hs (by simp)
  | cons y b' ih =>
    rcases List.mem_cons.mp hs with hh | ht
    · subst hh
      cases b' with
      | nil => exact hx
      | cons z b'' =>
        rw [joinSp_cons_cons]
        exact List.mem_append.mpr (Or.inl hx)
    · cases b' with
      | nil => exact absurd ht (by simp)
      | cons z b'' =>
        rw [joinSp_cons_cons]
        exact List.mem_append.mpr (Or.inr (List.mem_cons_of_mem _ (ih ht)))

theorem curB_pos {curB : List (List Char)}
    (hB : ∀ s ∈ curB, ∃ c ∈ s, isWsChar c = false) (hne : curB ≠ []) :
    0 < (joinSp curB).length := by
  cases curB with
  | nil => exact absurd rfl hne
  | cons s b' =>
    obtain ⟨c, hc, _⟩ := hB s (by simp)
    have : c ∈ joinSp (s :: b') := mem_joinSp hc (by simp)
    exact List.length_pos.mpr (by intro h; rw [h] at this; simp at this)

/-- The grouping loop of the source (`siLoop`) computes the trimmed joins of
the sentence blocks tracked by `gbLoop`. -/
theorem siLoop_gbLoop : ∀ (sents : List (List Char)) (cur : List Char)
    (curB : List (List Char)), cur = joinSp curB →
    (∀ s ∈ curB, ∃ c ∈ s, isWsChar c = false) →
    (∀ s ∈ sents, ∃ c ∈ s, isWsChar c = false) →
    siLoop cur sents = (gbLoop cur curB sents).map (fun b => trimStr (joinSp b)) := by
  intro sents
  induction sents with
  | nil =>
    intro cur curB hinv hB _
    by_cases hne : curB = []
    · subst hne
      rw [hinv]
      simp [siLoop, gbLoop, joinSp, trimStr]
    · rw [siLoop, gbLoop, if_neg hne]
      obtain ⟨c, hc, hcw⟩ := hB (curB.headD []) (by cases curB with
        | nil => exact absurd rfl hne
        | cons a b => simp)
      have hmem : c ∈ joinSp curB := mem_joinSp hc (by cases curB with
        | nil => exact absurd rfl hne
        | cons a b => simp)
      rw [if_pos (by rw [hinv]; exact trim_ne_of_member hmem hcw)]
      rw [hinv]
      simp
  | cons s rest ih =>
    intro cur curB hinv hB hS
    have hiff : 0 < cur.length ↔ curB ≠ [] := by
      constructor
      · intro hpos hnil
        rw [hnil] at hinv
        simp [joinSp] at hinv
        rw [hinv] at hpos
        simp at hpos
      · intro hne
        rw [hinv]
        exact curB_pos hB hne
    rw [siLoop, gbLoop]
    by_cases hcond : cur.length + s.length > 500 ∧ curB ≠ []
    · rw [if_pos ⟨hcond.1, hiff.mpr hcond.2⟩, if_pos hcond]
      rw [hinv]
      simp only [List.map_cons]
      rw [ih s [s] (by rfl) (fun x hx => by rw [List.mem_singleton.mp hx]; exact hS s (by simp))
        (fun x hx => hS x (List.mem_cons_of_mem _ hx))]
    · have hcond' : ¬(cur.length + s.length > 500 ∧ 0 < cur.length) := by
        intro hc
        exact hcond ⟨hc.1, hiff.mp hc.2⟩
      rw [if_neg hcond', if_neg hcond]
      have hiff0 : cur = [] ↔ curB = [] := by
        constructor
        · intro hc
          by_contra hne
          have := hiff.mpr hne
          rw [hc] at this
          simp at this
        · intro hc
          rw [hc] at hinv
          simpa [joinSp] using hinv
      by_cases hBnil : curB = []
      · rw [if_pos (hiff0.mpr hBnil), if_pos hBnil, hBnil]
        exact ih s [s] rfl
          (fun x hx => by rw [List.mem_singleton.mp hx]; exact hS s (by simp))
          (fun x hx => hS x (List.mem_cons_of_mem _ hx))
      · rw [if_neg (fun hc => hBnil (hiff0.mp hc)), if_neg hBnil]
        refine ih (cur ++ ' ' :: s) (curB ++ [s]) ?_ ?_
          (fun x hx => hS x (List.mem_cons_of_mem _ hx))
        · rw [hinv, joinSp_append_single curB s hBnil]
        · intro x hx
          rcases List.mem_append.mp hx with hh | ht
          · exact hB x hh
          · rw [List.mem_singleton.mp ht]
            exact hS s (by simp)

theorem gb_flatten : ∀ (sents : List (List Char)) (cur : List Char)
    (curB : List (List Char)), (gbLoop cur curB sents).flatten = curB ++ sents := by
  intro sents
  induction sents with
  | nil =>
    intro cur curB
    by_cases h : curB = []
    · subst h; simp [gbLoop]
    · rw [gbLoop, if_neg h]; simp
  | cons s rest ih =>
    intro cur curB
    rw [gbLoop]
    by_cases hcond : cur.length + s.length > 500 ∧ curB ≠ []
    · rw [if_pos hcond]
      simp [ih]
    · rw [if_neg hcond, ih]
      simp

theorem gb_ne_nil : ∀ (sents : List (List Char)) (cur : List Char)
    (curB : List (List Char)), curB ≠ [] → gbLoop cur curB sents ≠ [] := by
  intro sents
  induction sents with
  | nil => intro cur curB h; rw [gbLoop, if_neg h]; simp
  | cons s rest ih =>
    intro cur curB h
    rw [gbLoop]
    by_cases hcond : cur.length + s.length > 500 ∧ curB ≠ []
    · rw [if_pos hcond]
      simp
    · rw [if_neg hcond]
      exact ih _ (curB ++ [s]) (by simp)

theorem gb_blocks_ne : ∀ (sents : List (List Char)) (cur : List Char)
    (curB : List (List Char)), curB ≠ [] →
    ∀ b ∈ gbLoop cur curB sents, b ≠ [] := by
  intro sents
  induction sents with
  | nil =>
    intro cur curB h b hb
    rw [gbLoop, if_neg h] at hb
    rw [List.mem_singleton.mp hb]
    exact h
  | cons s rest ih =>
    intro cur curB h b hb
    rw [gbLoop] at hb
    by_cases hcond : cur.length + s.length > 500 ∧ curB ≠ []
    · rw [if_pos hcond] at hb
      rcases List.mem_cons.mp hb with hh | ht
      · subst hh; exact h
      · exact ih _ [s] (by simp) b ht
    · rw [if_neg hcond] at hb
      exact ih _ (curB ++ [s]) (by simp) b hb

theorem gb_head_sentence : ∀ (sents : List (List Char)) (cur : List Char)
    (curB : List (List Char)) (s0 : List Char) (tl : List (List Char)),
    curB = s0 :: tl →
    ∃ b2 bs, gbLoop cur curB sents = b2 :: bs ∧ b2.headD [] = s0 := by
  intro sents
  induction sents with
  | nil =>
    intro cur curB s0 tl h
    rw [gbLoop, if_neg (by rw [h]; simp)]
    exact ⟨curB, [], rfl, by rw [h]; rfl⟩
  | cons s rest ih =>
    intro cur curB s0 tl h
    rw [gbLoop]
    by_cases hcond : cur.length + s.length > 500 ∧ curB ≠ []
    · rw [if_pos hcond]
      exact ⟨curB, _, rfl, by rw [h]; rfl⟩
    · rw [if_neg hcond]
      exact ih _ (curB ++ [s]) s0 (tl ++ [s]) (by rw [h]; simp)

theorem blockOkAux_append : ∀ (rest0 : List (List Char)) (cur0 s : List Char),
    blockOkAux cur0 rest0 →
    ¬((jAcc cur0 rest0).length + s.length > 500 ∧ 0 < (jAcc cur0 rest0).length) →
    blockOkAux cur0 (rest0 ++ [s]) := by
  intro rest0
  induction rest0 with
  | nil =>
    intro cur0 s _ hc
    exact ⟨hc, trivial⟩
  | cons t r' ih =>
    intro cur0 s hok hc
    obtain ⟨h1, h2⟩ := hok
    exact ⟨h1, ih (cur0 ++ ' ' :: t) s h2 hc⟩

theorem blockOk_append (curB : List (List Char)) (s : List Char)
    (hok : blockOk curB)
    (hc : ¬((joinSp curB).length + s.length > 500 ∧ 0 < (joinSp curB).length)) :
    blockOk (curB ++ [s]) := by
  cases curB with
  | nil => exact trivial
  | cons s0 rest0 =>
    show blockOkAux s0 (rest0 ++ [s])
    apply blockOkAux_append rest0 s0 s hok
    rw [jAcc_joinSp]
    exact hc

theorem gb_ok : ∀ (sents : List (List Char)) (cur : List Char)
    (curB : List (List Char)), cur = joinSp curB → blockOk curB →
    (∀ x ∈ curB, ∃ c ∈ x, isWsChar c = false) →
    (∀ x ∈ sents, ∃ c ∈ x, isWsChar c = false) →
    blocksOk (gbLoop cur curB sents) := by
  intro sents
  induction sents with
  | nil =>
    intro cur curB _ hok _ _
    by_cases h : curB = []
    · subst h; simp [gbLoop, blocksOk]
    · rw [gbLoop, if_neg h]
      exact hok
  | cons s rest ih =>
    intro cur curB hinv hok hB hS
    rw [gbLoop]
    by_cases hcond : cur.length + s.length > 500 ∧ curB ≠ []
    · rw [if_pos hcond]
      obtain ⟨s0, tl, hcurB⟩ : ∃ s0 tl, curB = s0 :: tl := by
        cases curB with
        | nil => exact absurd rfl hcond.2
        | cons a b => exact ⟨a, b, rfl⟩
      obtain ⟨b2, bs, hgb, hhead⟩ := gb_head_sentence rest s [s] s [] rfl
      rw [hgb]
      have hrec : blocksOk (b2 :: bs) := by
        rw [← hgb]
        exact ih s [s] rfl trivial
          (fun x hx => by rw [List.mem_singleton.mp hx]; exact hS s (by simp))
          (fun x hx => hS x (List.mem_cons_of_mem _ hx))
      show blocksOk (curB :: b2 :: bs)
      refine ⟨hok, ?_, hrec⟩
      rw [hhead, ← hinv]
      exact ⟨hcond.1, by rw [hinv]; exact curB_pos hB hcond.2⟩
    · rw [if_neg hcond]
      by_cases hBnil : curB = []
      · subst hBnil
        rw [if_pos rfl]
        exact ih s [s] rfl trivial
          (fun x hx => by rw [List.mem_singleton.mp hx]; exact hS s (by simp))
          (fun x hx => hS x (List.mem_cons_of_mem _ hx))
      · rw [if_neg hBnil]
        refine ih _ (curB ++ [s]) (by rw [hinv, joinSp_append_single curB s hBnil])
          ?_ ?_ (fun x hx => hS x (List.mem_cons_of_mem _ hx))
        · apply blockOk_append curB s hok
          intro hc
          apply hcond
          refine ⟨by rw [hinv]; exact hc.1, hBnil⟩
        · intro x hx
          rcases List.mem_append.mp hx with hh | ht
          · exact hB x hh
          · rw [List.mem_singleton.mp ht]
            exact hS s (by simp)

theorem gb_blocks_ne0 (sents : List (List Char)) (cur : List Char) :
    ∀ b ∈ gbLoop cur [] sents, b ≠ [] := by
  cases sents with
  | nil =>
    intro b hb
    rw [gbLoop, if_pos rfl] at hb
    exact absurd hb (by simp)
  | cons s rest =>
    intro b hb
    rw [gbLoop, if_neg (by simp)] at hb
    exact gb_blocks_ne rest _ ([] ++ [s]) (by simp) b hb

/-- For text with non-whitespace content, `splitIntoParagraphs` partitions
the sentence sequence into contiguous non-empty blocks satisfying the cap
rule, and each paragraph is the trimmed space-join of its block. -/
theorem splitIntoParagraphs_blocks (text : List Char) (h : trimStr text ≠ []) :
    ∃ blocks : List (List (List Char)),
      blocks ≠ [] ∧
      blocks.flatten = splitSentences text ∧
      (∀ b ∈ blocks, b ≠ []) ∧
      blocksOk blocks ∧
      splitIntoParagraphs text = blocks.map (fun b => trimStr (joinSp b)) := by
  have hsd := sd_splitSentences text
  have hS : ∀ s ∈ splitSentences text, ∃ c ∈ s, isWsChar c = false :=
    sd_member_nonws hsd (trim_ne_member h)
  obtain ⟨s0, rest, hsx⟩ : ∃ s0 rest, splitSentences text = s0 :: rest := by
    cases hval : splitSentences text with
    | nil => exact absurd hval (sd_ne_nil hsd)
    | cons a b => exact ⟨a, b, rfl⟩
  have hne : gbLoop [] [] (splitSentences text) ≠ [] := by
    rw [hsx, gbLoop, if_neg (by simp)]
    exact gb_ne_nil rest _ _ (by simp)
  have hcl := siLoop_gbLoop (splitSentences text) [] [] rfl (by simp) hS
  refine ⟨gbLoop [] [] (splitSentences text), hne, ?_, gb_blocks_ne0 _ _, ?_, ?_⟩
  · rw [gb_flatten]
    simp
  · exact gb_ok (splitSentences text) [] [] rfl trivial (by simp) hS
  · unfold splitIntoParagraphs
    have hlen : 0 < (siLoop [] (splitSentences text)).length := by
      rw [hcl]
      simpa [List.length_map] using List.length_pos.mpr hne
    rw [if_pos hlen, hcl]

/-- **C4** Paragraph cap rule: for every input text with non-whitespace
content, `splitIntoParagraphs` partitions the sentence sequence into
contiguous non-empty blocks — so no sentence is ever split across two
paragraphs — and each paragraph is the trimmed space-join of its block.  The
buffer is closed exactly when the buffer's length plus the next sentence's
length exceeds 500 and the buffer is non-empty ("appending that sentence
would push the buffer's length past 500 characters", the joining space not
counted, exactly as the source checks `current.length + sentence.length >
500 && current.length > 0`): inside a block every append satisfied the
negation of that condition, and at every block boundary the condition
held. -/
theorem c4_paragraph_cap (text : List Char) (h : trimStr text ≠ []) :
    ∃ blocks : List (List (List Char)),
      blocks ≠ [] ∧
      blocks.flatten = splitSentences text ∧
      (∀ b ∈ blocks, b ≠ []) ∧
      blocksOk blocks ∧
      splitIntoParagraphs text = blocks.map (fun b => trimStr (joinSp b)) :=
  splitIntoParagraphs_blocks text h

/-- Witness for C4 at the concrete text `"Hi. Bye."`. -/
theorem c4_paragraph_cap_witness :
    trimStr "Hi. Bye.".toList ≠ [] ∧
      ∃ blocks : List (List (List Char)),
        blocks ≠ [] ∧
        blocks.flatten = splitSentences "Hi. Bye.".toList ∧
        (∀ b ∈ blocks, b ≠ []) ∧
        blocksOk blocks ∧
        splitIntoParagraphs "Hi. Bye.".toList =
          blocks.map (fun b => trimStr (joinSp b)) :=
  ⟨by decide, c4_paragraph_cap "Hi. Bye.".toList (by decide)⟩

/-! ### C5: segmentation as a lossless partition -/

theorem dropWhile_append_ne {p : Char → Bool} : ∀ (v tail : List Char),
    v.dropWhile p ≠ [] →
    (v ++ tail).dropWhile p = v.dropWhile p ++ tail := by
  intro v
  induction v with
  | nil => intro tail h; exact absurd rfl h
  | cons a v' ih =>
    intro tail h
    by_cases ha : p a = true
    · rw [List.dropWhile_cons_of_pos ha] at h
      rw [List.cons_append, List.dropWhile_cons_of_pos ha,
        List.dropWhile_cons_of_pos ha]
      exact ih tail h
    · rw [List.cons_append, List.dropWhile_cons_of_neg ha,
        List.dropWhile_cons_of_neg ha]
      rfl

theorem head?_append_left {s : List Char} (t : List Char) (h : s ≠ []) :
    (s ++ t).head? = s.head? := by
  cases s with
  | nil => exact absurd rfl h
  | cons a as => simp

/-- A boundary test inside a segment with non-whitespace edges is unaffected
by material before the segment and after it: the lookbehind only consults
the terminal character just scanned, and the lookahead cannot skip past the
segment's non-whitespace last character. -/
theorem lookBoundary_trans (pre u : List Char) (c : Char) (v tail : List Char)
    (hh : ∀ x, (u ++ c :: v).head? = some x → isWsChar x = false)
    (hl : ∀ x, (u ++ c :: v).getLast? = some x → isWsChar x = false) :
    lookBoundary (pre ++ u) c (v ++ tail) = lookBoundary u c v := by
  by_cases hc : isWsChar c = true
  · have hu : u ≠ [] := by
      intro hnil
      subst hnil
      have := hh c rfl
      rw [hc] at this
      exact Bool.noConfusion this
    have hvne : v ≠ [] := by
      intro hvnil
      subst hvnil
      have hgl : (u ++ c :: ([] : List Char)).getLast? = some c := by
        rw [List.getLast?_append_of_ne_nil _ (by simp)]
        rfl
      have := hl c hgl
      rw [hc] at this
      exact Bool.noConfusion this
    have hv : v.dropWhile isWsChar ≠ [] := by
      intro hnil
      obtain ⟨lv, hlv⟩ := Option.isSome_iff_exists.mp (List.getLast?_isSome.mpr hvne)
      have hlvw : isWsChar lv = false := by
        apply hl
        rw [List.getLast?_append_of_ne_nil _ (by simp)]
        rw [show (c :: v) = [c] ++ v from rfl,
          List.getLast?_append_of_ne_nil _ hvne]
        exact hlv
      have := List.dropWhile_eq_nil_iff.mp hnil lv (List.mem_of_getLast?_eq_some hlv)
      rw [hlvw] at this
      exact Bool.noConfusion this
    unfold lookBoundary
    rw [dropWhile_append_ne v tail hv, List.getLast?_append_of_ne_nil _ hu]
    cases hdv : v.dropWhile isWsChar with
    | nil => exact absurd hdv hv
    | cons d r =>
      rfl
  · have hc' : isWsChar c = false := by simpa using hc
    rw [lookBoundary_not_ws hc', lookBoundary_not_ws hc']

/-- In a sentence decomposition of a text with non-whitespace edges, no
boundary fires inside any sentence taken on its own. -/
theorem sd_noSplit {t : List Char} {ss : List (List Char)} (h : SD t ss) :
    (∀ x, t.head? = some x → isWsChar x = false) →
    (∀ x, t.getLast? = some x → isWsChar x = false) →
    ∀ s ∈ ss, ∀ u c v, s = u ++ c :: v → lookBoundary u c v = false := by
  induction h with
  | single s hf =>
    intro _ _ x hx
    rw [List.mem_singleton.mp hx]
    exact hf
  | step s w rest ss' hterm hwne hws hup hf hsd ih =>
    intro hh hl x hx u c v hxd
    rcases List.mem_cons.mp hx with hxs | hxr
    · rw [hxs] at hxd
      have hsne : s ≠ [] := by
        obtain ⟨p, hp, _⟩ := hterm
        intro hnil
        rw [hnil] at hp
        exact Option.noConfusion hp
      have hsh : ∀ y, s.head? = some y → isWsChar y = false := by
        intro y hy
        apply hh
        rw [← hy]
        cases s with
        | nil => exact absurd rfl hsne
        | cons a as => simp
      have hsl : ∀ y, s.getLast? = some y → isWsChar y = false := by
        intro y hy
        obtain ⟨p, hp, hpt⟩ := hterm
        rw [hp] at hy
        injection hy with he
        rw [← he]
        exact term_not_ws hpt
      have key := lookBoundary_trans [] u c v (w ++ rest)
        (by rw [← hxd]; exact hsh) (by rw [← hxd]; exact hsl)
      simp only [List.nil_append] at key
      have hfv := hf u c v hxd
      rw [List.append_assoc] at hfv
      rw [← key]
      exact hfv
    · obtain ⟨d, r2, hrest, hud⟩ := hup
      refine ih ?_ ?_ x hxr u c v hxd
      · intro y hy
        rw [hrest] at hy
        simp only [List.head?_cons] at hy
        injection hy with he
        rw [← he]
        exact upper_not_ws hud
      · intro y hy
        have h2 : (s ++ w ++ rest).getLast? = rest.getLast? :=
          List.getLast?_append_of_ne_nil _ (by rw [hrest]; simp)
        exact hl y (h2.trans hy)

/-- Scanning a boundary-free segment with non-whitespace edges just moves it
into the accumulator, regardless of surrounding material. -/
theorem ssAux_pass : ∀ (v u cur tail : List Char),
    (∀ u2 c v2, u ++ v = u2 ++ c :: v2 → lookBoundary u2 c v2 = false) →
    (∀ x, (u ++ v).head? = some x → isWsChar x = false) →
    (∀ x, (u ++ v).getLast? = some x → isWsChar x = false) →
    ssAux false (cur ++ u) (v ++ tail) = ssAux false (cur ++ (u ++ v)) tail := by
  intro v
  induction v with
  | nil =>
    intro u cur tail _ _ _
    simp
  | cons c v' ih =>
    intro u cur tail hns hh hl
    have hbd : lookBoundary (cur ++ u) c (v' ++ tail) = lookBoundary u c v' :=
      lookBoundary_trans cur u c v' tail hh hl
    have hbd0 : lookBoundary (cur ++ u) c (v' ++ tail) = false := by
      rw [hbd]
      exact hns u c v' rfl
    rw [List.cons_append]
    simp only [ssAux]
    rw [if_neg (by simp [hbd0])]
    have heq : (u ++ [c]) ++ v' = u ++ c :: v' := by simp
    rw [List.append_assoc cur u [c]]
    have hres := ih (u ++ [c]) cur tail
      (by rw [heq]; exact hns) (by rw [heq]; exact hh) (by rw [heq]; exact hl)
    rw [heq] at hres
    exact hres

theorem joinSp_head (s0 : List Char) (b : List (List Char)) (h : s0 ≠ []) :
    (joinSp (s0 :: b)).head? = s0.head? := by
  cases b with
  | nil => rfl
  | cons s1 b' =>
    rw [joinSp_cons_cons]
    exact head?_append_left _ h

theorem joinSp_getLast : ∀ (b : List (List Char)), b ≠ [] →
    (∀ s ∈ b, s ≠ []) →
    ∃ bl, b.getLast? = some bl ∧ (joinSp b).getLast? = bl.getLast? := by
  intro b
  induction b with
  | nil => intro h _; exact absurd rfl h
  | cons s0 b' ih =>
    intro _ hne
    cases b' with
    | nil => exact ⟨s0, rfl, rfl⟩
    | cons s1 b'' =>
      obtain ⟨bl, h1, h2⟩ := ih (by simp) (fun s hs => hne s (List.mem_cons_of_mem _ hs))
      refine ⟨bl, ?_, ?_⟩
      · rw [List.getLast?_cons_cons]
        exact h1
      · have hs1 : s1 ≠ [] := hne s1 (by simp)
        have hJne : joinSp (s1 :: b'') ≠ [] := by
          intro hc
          have hhd := joinSp_head s1 b'' hs1
          rw [hc] at hhd
          cases s1 with
          | nil => exact absurd rfl hs1
          | cons a as => simp at hhd
        rw [joinSp_cons_cons,
          List.getLast?_append_of_ne_nil _ (by simp : (' ' :: joinSp (s1 :: b'')) ≠ []),
          show (' ' :: joinSp (s1 :: b'')) = [' '] ++ joinSp (s1 :: b'') from rfl,
          List.getLast?_append_of_ne_nil _ hJne]
        exact h2

/-- Trimming is the identity on a string with non-whitespace edges. -/
theorem trim_noop (s : List Char)
    (hh : ∀ c, s.head? = some c → isWsChar c = false)
    (hl : ∀ c, s.getLast? = some c → isWsChar c = false) :
    trimStr s = s := by
  unfold trimStr
  have h1 : s.dropWhile isWsChar = s := by
    cases s with
    | nil => rfl
    | cons a as =>
      rw [List.dropWhile_cons_of_neg]
      simp [hh a rfl]
  rw [h1]
  have h2 : s.reverse.dropWhile isWsChar = s.reverse := by
    cases hrev : s.reverse with
    | nil => rfl
    | cons a as =>
      rw [List.dropWhile_cons_of_neg]
      have hla : s.getLast? = some a := by
        rw [← List.head?_reverse, hrev]
        rfl
      simp [hl a hla]
  rw [h2, List.reverse_reverse]

/-- Re-scanning the space-join of a block of well-formed sentences recovers
exactly the block: the joining spaces are the only boundaries that fire. -/
theorem splitSentences_joinSp : ∀ (b : List (List Char)), b ≠ [] →
    (∀ s ∈ b, ∀ u c v, s = u ++ c :: v → lookBoundary u c v = false) →
    (∀ s ∈ b, ∀ x, s.head? = some x → isWsChar x = false) →
    (∀ s ∈ b, ∀ x, s.getLast? = some x → isWsChar x = false) →
    (∀ s ∈ b.tail, ∃ d r, s = d :: r ∧ isUpperChar d = true) →
    (∀ s ∈ b.dropLast, ∃ p, s.getLast? = some p ∧ isTermChar p = true) →
    splitSentences (joinSp b) = b := by
  intro b
  induction b with
  | nil => intro h; exact absurd rfl h
  | cons s0 b' ih =>
    intro _ hns hh hl hup hterm
    cases b' with
    | nil =>
      have h1 := ssAux_pass s0 [] [] []
        (by simpa using hns s0 (by simp))
        (by simpa using hh s0 (by simp))
        (by simpa using hl s0 (by simp))
      simp only [List.nil_append, List.append_nil] at h1
      show ssAux false [] (joinSp [s0]) = [s0]
      have hj : joinSp [s0] = s0 := rfl
      rw [hj, h1]
      rfl
    | cons s1 b'' =>
      have hterm0 : ∃ p, s0.getLast? = some p ∧ isTermChar p = true := by
        apply hterm
        rw [List.dropLast_cons₂]
        simp
      obtain ⟨p0, hp0, hpt0⟩ := hterm0
      obtain ⟨d, r1, hs1, hud⟩ := hup s1 (by simp)
      have hs1ne : s1 ≠ [] := by rw [hs1]; simp
      have hJhead : (joinSp (s1 :: b'')).head? = some d := by
        rw [joinSp_head s1 b'' hs1ne, hs1]
        rfl
      obtain ⟨J', hJ⟩ : ∃ J', joinSp (s1 :: b'') = d :: J' := by
        cases hJv : joinSp (s1 :: b'') with
        | nil => rw [hJv] at hJhead; exact Option.noConfusion hJhead
        | cons a as =>
          rw [hJv] at hJhead
          simp only [List.head?_cons] at hJhead
          injection hJhead with he
          subst he
          exact ⟨as, rfl⟩
      show ssAux false [] (joinSp (s0 :: s1 :: b'')) = s0 :: s1 :: b''
      rw [joinSp_cons_cons]
      have hpass := ssAux_pass s0 [] [] (' ' :: joinSp (s1 :: b''))
        (by simpa using hns s0 (by simp))
        (by simpa using hh s0 (by simp))
        (by simpa using hl s0 (by simp))
      simp only [List.nil_append] at hpass
      rw [hpass]
      have hws : isWsChar ' ' = true := by decide
      have hbd : lookBoundary s0 ' ' (joinSp (s1 :: b'')) = true := by
        unfold lookBoundary
        rw [hp0, hJ, List.dropWhile_cons_of_neg (by simp [upper_not_ws hud])]
        simp [hpt0, hud, hws]
      simp only [ssAux]
      rw [if_pos hbd]
      rw [ssAux_skip, hJ, List.dropWhile_cons_of_neg (by simp [upper_not_ws hud]), ← hJ]
      have hrec := ih (by simp)
        (fun s hs => hns s (List.mem_cons_of_mem _ hs))
        (fun s hs => hh s (List.mem_cons_of_mem _ hs))
        (fun s hs => hl s (List.mem_cons_of_mem _ hs))
        (fun s hs => hup s (List.mem_cons_of_mem _ hs))
        (fun s hs => hterm s (List.mem_cons_of_mem _ hs))
      show s0 :: splitSentences (joinSp (s1 :: b'')) = s0 :: s1 :: b''
      rw [hrec]

theorem mem_tail_flatten {α : Type} {x : α} {b : List α} {blocks : List (List α)}
    (hb : b ∈ blocks) (hx : x ∈ b.tail) : x ∈ blocks.flatten.tail := by
  obtain ⟨L1, L2, hdec⟩ := List.append_of_mem hb
  subst hdec
  rw [List.flatten_append, List.flatten_cons]
  cases b with
  | nil => simp at hx
  | cons b0 bt =>
    simp only [List.tail_cons] at hx
    cases hL : L1.flatten with
    | nil =>
      rw [List.nil_append, List.cons_append, List.tail_cons]
      exact List.mem_append.mpr (Or.inl hx)
    | cons a as =>
      rw [List.cons_append, List.tail_cons]
      exact List.mem_append.mpr (Or.inr (List.mem_append.mpr
        (Or.inl (List.mem_cons_of_mem _ hx))))

theorem mem_dropLast_flatten {α : Type} {x : α} {b : List α} {blocks : List (List α)}
    (hb : b ∈ blocks) (hx : x ∈ b.dropLast) : x ∈ blocks.flatten.dropLast := by
  obtain ⟨L1, L2, hdec⟩ := List.append_of_mem hb
  subst hdec
  rw [List.flatten_append, List.flatten_cons]
  have hbne : b ≠ [] := by
    intro hc
    rw [hc] at hx
    simp at hx
  obtain ⟨b', bl, hbsplit⟩ : ∃ b' bl, b = b' ++ [bl] :=
    ⟨b.dropLast, b.getLast hbne, (List.dropLast_append_getLast hbne).symm⟩
  subst hbsplit
  rw [List.dropLast_concat] at hx
  have hrearr : L1.flatten ++ ((b' ++ [bl]) ++ L2.flatten) =
      (L1.flatten ++ b') ++ (bl :: L2.flatten) := by simp
  rw [hrearr, List.dropLast_append_of_ne_nil _ (by simp)]
  exact List.mem_append.mpr (Or.inl (List.mem_append.mpr (Or.inr hx)))

/-- Counterexample to C5 as stated: on the text `" A. B."` direct sentence
splitting keeps the leading space on the first sentence, but the paragraph
produced by `splitIntoParagraphs` is trimmed, so re-splitting the paragraphs
yields `["A.", "B."]` instead of `[" A.", "B."]`. -/
theorem c5_lossless_partition_cex :
    ((splitIntoParagraphs " A. B.".toList).map splitSentences).flatten ≠
      splitSentences " A. B.".toList := by
  decide

/-- **C5 (amended)** Segmentation is a lossless partition for every input
text with no leading or trailing whitespace: concatenating, in order, the
sentence sequences of all paragraphs produced by `splitIntoParagraphs`
reproduces exactly the sentence sequence obtained by sentence-splitting the
original text directly.  (For text with whitespace at an edge the claim
fails as stated, because paragraphs pass through `.trim()`: see the
counterexample.) -/
theorem c5_lossless_partition (text : List Char) (h : noWsEdge text = true) :
    ((splitIntoParagraphs text).map splitSentences).flatten =
      splitSentences text := by
  by_cases htr : trimStr text = []
  · have hnil : text = [] := by
      cases text with
      | nil => rfl
      | cons a as =>
        have hws2 := trim_nil_allWs htr a (by simp)
        have hnw := noWsEdge_head h a rfl
        rw [hws2] at hnw
        exact Bool.noConfusion hnw
    subst hnil
    decide
  · obtain ⟨blocks, hbne, hflat, hbe, _, hpar⟩ := splitIntoParagraphs_blocks text htr
    have hsd := sd_splitSentences text
    have hS : ∀ s ∈ splitSentences text, ∃ c ∈ s, isWsChar c = false :=
      sd_member_nonws hsd (trim_ne_member htr)
    have hALLH : ∀ s ∈ splitSentences text, ∀ x, s.head? = some x →
        isWsChar x = false := by
      obtain ⟨s₀, ss₀, hss, hhead⟩ := sd_head hsd
      intro s hs x hx
      rw [hss] at hs
      rcases List.mem_cons.mp hs with h1 | h1
      · subst h1
        apply noWsEdge_head h
        rw [← hhead]
        exact hx
      · obtain ⟨d, r, hsd2, hud⟩ := sd_tail_upper hsd s (by rw [hss]; simpa using h1)
        rw [hsd2] at hx
        simp only [List.head?_cons] at hx
        injection hx with he
        rw [← he]
        exact upper_not_ws hud
    have hALLL : ∀ s ∈ splitSentences text, ∀ x, s.getLast? = some x →
        isWsChar x = false := by
      intro s hs x hx
      obtain ⟨sl, hsl, hlast⟩ := sd_getLast hsd
      have hsne : splitSentences text ≠ [] := sd_ne_nil hsd
      have hdecomp := List.dropLast_append_getLast hsne
      rw [← hdecomp] at hs
      rcases List.mem_append.mp hs with h1 | h1
      · obtain ⟨p, hp, hpt⟩ := sd_dropLast_term hsd s h1
        rw [hp] at hx
        injection hx with he
        rw [← he]
        exact term_not_ws hpt
      · have hsl2 : s = (splitSentences text).getLast hsne := List.mem_singleton.mp h1
        have hg : (splitSentences text).getLast? =
            some ((splitSentences text).getLast hsne) :=
          List.getLast?_eq_getLast _ hsne
        rw [hsl] at hg
        injection hg with he
        apply noWsEdge_last h
        rw [← hlast]
        have hssl : s = sl := hsl2.trans he.symm
        rw [← hssl]
        exact hx
    have hALLN : ∀ s ∈ splitSentences text, ∀ u c v, s = u ++ c :: v →
        lookBoundary u c v = false :=
      sd_noSplit hsd (noWsEdge_head h) (noWsEdge_last h)
    have hper : ∀ b ∈ blocks, splitSentences (trimStr (joinSp b)) = b := by
      intro b hb
      have hsub : ∀ s ∈ b, s ∈ splitSentences text := by
        intro s hs
        rw [← hflat]
        exact List.mem_flatten.mpr ⟨b, hb, hs⟩
      have hbne2 : b ≠ [] := hbe b hb
      have hsneb : ∀ s ∈ b, s ≠ [] := by
        intro s hs
        obtain ⟨c, hc, _⟩ := hS s (hsub s hs)
        intro hcon
        rw [hcon] at hc
        simp at hc
      have hupb : ∀ s ∈ b.tail, ∃ d r, s = d :: r ∧ isUpperChar d = true := by
        intro s hs
        exact sd_tail_upper hsd s (by rw [← hflat]; exact mem_tail_flatten hb hs)
      have htermb : ∀ s ∈ b.dropLast, ∃ p, s.getLast? = some p ∧
          isTermChar p = true := by
        intro s hs
        exact sd_dropLast_term hsd s (by rw [← hflat]; exact mem_dropLast_flatten hb hs)
      obtain ⟨s0, brest, hbcons⟩ : ∃ s0 brest, b = s0 :: brest := by
        cases b with
        | nil => exact absurd rfl hbne2
        | cons a l => exact ⟨a, l, rfl⟩
      have hJh : ∀ x, (joinSp b).head? = some x → isWsChar x = false := by
        intro x hx
        rw [hbcons, joinSp_head s0 brest (hsneb s0 (by rw [hbcons]; simp))] at hx
        exact hALLH s0 (hsub s0 (by rw [hbcons]; simp)) x hx
      have hJl : ∀ x, (joinSp b).getLast? = some x → isWsChar x = false := by
        intro x hx
        obtain ⟨bl, hbl1, hbl2⟩ := joinSp_getLast b hbne2 hsneb
        rw [hbl2] at hx
        exact hALLL bl (hsub bl (List.mem_of_getLast?_eq_some hbl1)) x hx
      rw [trim_noop (joinSp b) hJh hJl]
      exact splitSentences_joinSp b hbne2
        (fun s hs => hALLN s (hsub s hs))
        (fun s hs => hALLH s (hsub s hs))
        (fun s hs => hALLL s (hsub s hs))
        hupb htermb
    rw [hpar]
    have hmap : blocks.map (fun b => splitSentences (trimStr (joinSp b))) = blocks := by
      have h1 : blocks.map (fun b => splitSentences (trimStr (joinSp b))) =
          blocks.map id := List.map_congr_left (fun b hb => hper b hb)
      rw [h1, List.map_id]
    calc ((blocks.map (fun b => trimStr (joinSp b))).map splitSentences).flatten
        = (blocks.map (fun b => splitSentences (trimStr (joinSp b)))).flatten := by
          rw [List.map_map]
          rfl
      _ = blocks.flatten := by rw [hmap]
      _ = splitSentences text := hflat

/-- Witness for the amended C5 at the concrete text `"One two. Three four."`. -/
theorem c5_lossless_partition_witness :
    noWsEdge "One two. Three four.".toList = true ∧
      ((splitIntoParagraphs "One two. Three four.".toList).map splitSentences).flatten =
        splitSentences "One two. Three four.".toList :=
  ⟨by decide, c5_lossless_partition "One two. Three four.".toList (by decide)⟩

end CMon
